import Mathlib

/-!
Verification of the expander-decomposition core: a shallow embedding of the
unit-flow push-relabel engine (src/lib/unit_flow.cpp) and of the cut-matching
solver (src/lib/cut_matching.cpp), with theorems settling the specification
claims about them.

Machine integers (C++ `int` / the `Flow` typedef) are modelled as `ℤ`, vertex
indices and vector lengths as `ℕ`, and the `double` flow vectors of the cut
player as `ℚ`.  Adjacency vectors become functions `ℕ → List Edge`; per-vertex
arrays become functions out of `ℕ`.
-/

namespace UnitFlow

/-- Half-edge as in `UnitFlow::Edge` (unit_flow.cpp lines 4-7): endpoints
`from`/`to` (renamed `src`/`dst` here because both are reserved words in
Lean), the index `backIdx` of the twin inside the other endpoint's adjacency
list, and `flow`/`capacity`. -/
structure Edge where
  src : ℕ
  dst : ℕ
  backIdx : ℕ
  flow : ℤ
  capacity : ℤ
deriving DecidableEq, Repr, Inhabited

/-- The mutable state of a `UnitFlow` graph with `n` vertices: the adjacency
lists and the per-vertex vectors `absorbed`, `sink`, `height`, `nextEdgeIdx`
from the constructor `UnitFlow::UnitFlow(int n)` (unit_flow.cpp lines 9-10). -/
structure State where
  n : ℕ
  graph : ℕ → List Edge
  absorbed : ℕ → ℤ
  sink : ℕ → ℤ
  height : ℕ → ℕ
  nextEdgeIdx : ℕ → ℕ

/-- Modelled from the spec: `excess(u) = absorbed(u) − sink(u)` (spec §3,
"Flow graph state"; the accessor lives in the header `unit_flow.hpp`, which is
not among the sources). -/
def excess (st : State) (u : ℕ) : ℤ := st.absorbed u - st.sink u

/-- Modelled from the spec: `residual(e) = capacity(e) − flow(e)` (spec §3;
accessor from the missing header `unit_flow.hpp`). -/
def residual (e : Edge) : ℤ := e.capacity - e.flow

/-- Modelled from the spec: the degree of a vertex.  This early `UnitFlow`
version has no vertex removal, so the degree is the adjacency-list length
(accessor from the missing header `unit_flow.hpp`). -/
def degree (st : State) (u : ℕ) : ℕ := (st.graph u).length

/-- Modelled from the spec: `flowIn(v)`, the amount of flow entering `v`
(spec §4.B, matching extraction; accessor from the missing header
`unit_flow.hpp`).  Flow into `v` shows up as negative flow on the half-edges
stored at `v`, so it is the sum of their negative parts. -/
def flowIn (st : State) (v : ℕ) : ℤ :=
  ((st.graph v).map (fun e => max 0 (-e.flow))).sum

/-- `UnitFlow::addEdge` (unit_flow.cpp lines 12-21): self-loops are ignored;
otherwise one half-edge is appended to each endpoint's list, each `backIdx`
set to the other list's size before either append (`uNeighborCount` and
`vNeighborCount` are read first in the C++). -/
def addEdge (g : ℕ → List Edge) (u v : ℕ) (capacity : ℤ) : ℕ → List Edge :=
  if u = v then g
  else
    Function.update
      (Function.update g u (g u ++ [⟨u, v, (g v).length, 0, capacity⟩])) v
      ((Function.update g u (g u ++ [⟨u, v, (g v).length, 0, capacity⟩])) v
        ++ [⟨v, u, (g u).length, 0, capacity⟩])

/-- The adjacency structure obtained from the empty graph by a sequence of
`addEdge` calls, one per list entry `(u, v, capacity)`. -/
def buildGraph (es : List (ℕ × ℕ × ℤ)) : ℕ → List Edge :=
  es.foldl (fun g e => addEdge g e.1 e.2.1 e.2.2) (fun _ => [])

/-- Rereading an index after an equality of lists. -/
lemma get_congr {α : Type} {l l2 : List α} (h : l = l2) {i : ℕ}
    (hi : i < l.length) (hi2 : i < l2.length) :
    l.get ⟨i, hi⟩ = l2.get ⟨i, hi2⟩ := by
  subst h
  rfl

/-- The mutual-reverse invariant of the half-edge representation: every stored
half-edge records its owner in `src`, and its `backIdx` locates a twin whose
endpoints are swapped and whose `backIdx` points back. -/
def EdgeSymm (g : ℕ → List Edge) : Prop :=
  ∀ u : ℕ, ∀ i : ℕ, ∀ hi : i < (g u).length,
    ((g u).get ⟨i, hi⟩).src = u ∧
    ∃ hb : ((g u).get ⟨i, hi⟩).backIdx < (g ((g u).get ⟨i, hi⟩).dst).length,
      ((g ((g u).get ⟨i, hi⟩).dst).get ⟨((g u).get ⟨i, hi⟩).backIdx, hb⟩).dst
          = ((g u).get ⟨i, hi⟩).src ∧
      ((g ((g u).get ⟨i, hi⟩).dst).get ⟨((g u).get ⟨i, hi⟩).backIdx, hb⟩).src
          = ((g u).get ⟨i, hi⟩).dst ∧
      ((g ((g u).get ⟨i, hi⟩).dst).get ⟨((g u).get ⟨i, hi⟩).backIdx, hb⟩).backIdx
          = i

lemma edgeSymm_empty : EdgeSymm (fun _ => []) := by
  intro u i hi
  simp at hi

lemma edgeSymm_addEdge {g : ℕ → List Edge} (hg : EdgeSymm g)
    (u v : ℕ) (c : ℤ) : EdgeSymm (addEdge g u v c) := by
  unfold addEdge
  split
  · exact hg
  next huv =>
  set e1 : Edge := ⟨u, v, (g v).length, 0, c⟩ with he1
  set e2 : Edge := ⟨v, u, (g u).length, 0, c⟩ with he2
  set g2 : ℕ → List Edge :=
    Function.update (Function.update g u (g u ++ [e1])) v
      (Function.update g u (g u ++ [e1]) v ++ [e2]) with hg2
  have hg1v : Function.update g u (g u ++ [e1]) v = g v :=
    Function.update_noteq (Ne.symm huv) _ _
  have h2u : g2 u = g u ++ [e1] := by
    rw [hg2, Function.update_noteq huv, Function.update_same]
  have h2v : g2 v = g v ++ [e2] := by
    rw [hg2, Function.update_same, hg1v]
  have h2other : ∀ w, w ≠ u → w ≠ v → g2 w = g w := by
    intro w hwu hwv
    rw [hg2, Function.update_noteq hwv, Function.update_noteq hwu]
  have hmono : ∀ w, ∃ t : List Edge, g2 w = g w ++ t := by
    intro w
    by_cases hwu : w = u
    · exact ⟨[e1], by rw [hwu, h2u]⟩
    by_cases hwv : w = v
    · exact ⟨[e2], by rw [hwv, h2v]⟩
    · exact ⟨[], by rw [h2other w hwu hwv, List.append_nil]⟩
  have hlenmono : ∀ w, (g w).length ≤ (g2 w).length := by
    intro w
    obtain ⟨t, ht⟩ := hmono w
    rw [ht, List.length_append]
    omega
  have hold : ∀ w i (hio : i < (g w).length) (hi2 : i < (g2 w).length),
      (g2 w).get ⟨i, hi2⟩ = (g w).get ⟨i, hio⟩ := by
    intro w i hio hi2
    obtain ⟨t, ht⟩ := hmono w
    have hi3 : i < (g w ++ t).length := by rw [List.length_append]; omega
    rw [get_congr ht hi2 hi3]
    simp only [List.get_eq_getElem]
    exact List.getElem_append_left hio
  intro w i hi
  rcases Nat.lt_or_ge i (g w).length with hio | hinew
  · -- an edge that already existed: all facts transport from `hg`
    obtain ⟨hsrc, hb, h1, h2, h3⟩ := hg w i hio
    rw [hold w i hio hi]
    refine ⟨hsrc, ?_⟩
    have hb2 : ((g w).get ⟨i, hio⟩).backIdx
        < (g2 (((g w).get ⟨i, hio⟩).dst)).length :=
      lt_of_lt_of_le hb (hlenmono _)
    refine ⟨hb2, ?_⟩
    rw [hold _ _ hb hb2]
    exact ⟨h1, h2, h3⟩
  · -- one of the two freshly appended half-edges
    have hconcat : ∀ (l : List Edge) (a : Edge) (hc : l.length < (l ++ [a]).length),
        (l ++ [a]).get ⟨l.length, hc⟩ = a := by
      intro l a hc
      simp only [List.get_eq_getElem]
      exact List.getElem_concat_length l a l.length rfl hc
    by_cases hwu : w = u
    · subst hwu
      have hlen : (g2 w).length = (g w).length + 1 := by
        rw [h2u, List.length_append]
        rfl
      have hieq : i = (g w).length := by omega
      subst hieq
      have hget1 : (g2 w).get ⟨(g w).length, hi⟩ = e1 := by
        have hc : (g w).length < (g w ++ [e1]).length := by
          simp
        rw [get_congr h2u hi hc]
        exact hconcat _ _ hc
      rw [hget1]
      refine ⟨rfl, ?_⟩
      have hb2 : e1.backIdx < (g2 e1.dst).length := by
        show (g v).length < (g2 v).length
        rw [h2v, List.length_append]
        simp
      refine ⟨hb2, ?_⟩
      have hc2 : (g v).length < (g v ++ [e2]).length := by
        simp
      have hget2 : (g2 e1.dst).get ⟨e1.backIdx, hb2⟩ = e2 := by
        rw [get_congr (show g2 e1.dst = g v ++ [e2] from h2v) hb2 hc2]
        exact hconcat _ _ hc2
      rw [hget2]
      exact ⟨rfl, rfl, rfl⟩
    by_cases hwv : w = v
    · subst hwv
      have hlen : (g2 w).length = (g w).length + 1 := by
        rw [h2v, List.length_append]
        rfl
      have hieq : i = (g w).length := by omega
      subst hieq
      have hget1 : (g2 w).get ⟨(g w).length, hi⟩ = e2 := by
        have hc : (g w).length < (g w ++ [e2]).length := by
          simp
        rw [get_congr h2v hi hc]
        exact hconcat _ _ hc
      rw [hget1]
      refine ⟨rfl, ?_⟩
      have hb2 : e2.backIdx < (g2 e2.dst).length := by
        show (g u).length < (g2 u).length
        rw [h2u, List.length_append]
        simp
      refine ⟨hb2, ?_⟩
      have hc2 : (g u).length < (g u ++ [e1]).length := by
        simp
      have hget2 : (g2 e2.dst).get ⟨e2.backIdx, hb2⟩ = e1 := by
        rw [get_congr (show g2 e2.dst = g u ++ [e1] from h2u) hb2 hc2]
        exact hconcat _ _ hc2
      rw [hget2]
      exact ⟨rfl, rfl, rfl⟩
    · exfalso
      rw [h2other w hwu hwv] at hi
      omega

lemma edgeSymm_buildGraph (es : List (ℕ × ℕ × ℤ)) : EdgeSymm (buildGraph es) := by
  suffices h : ∀ g : ℕ → List Edge, EdgeSymm g →
      EdgeSymm (es.foldl (fun g e => addEdge g e.1 e.2.1 e.2.2) g) by
    exact h _ edgeSymm_empty
  induction es with
  | nil => intro g hg; exact hg
  | cons e es ih =>
    intro g hg
    exact ih _ (edgeSymm_addEdge hg e.1 e.2.1 e.2.2)


/-- `UnitFlow::reset` (unit_flow.cpp lines 81-89), transliterated from the
source: `absorbed`, `sink` and `nextEdgeIdx` are set to zero for every vertex,
but the inner loop `for (auto edge : graph[u]) edge.flow = 0;` iterates the
adjacency vector BY VALUE, so the assignment mutates a copy and the stored
edge flows (and everything else about the adjacency lists) are unchanged.
`height` is not touched either. -/
def reset (st : State) : State :=
  { st with
      absorbed := fun _ => 0
      sink := fun _ => 0
      nextEdgeIdx := fun _ => 0 }

/-- A unit-flow state over two vertices with one unit of flow already routed
along its single edge (0,1), one unit absorbed at the sink 1: exactly the
state reached by `addEdge(0,1,1); addSource(0,1); addSink(1,1); compute(10)`
in the S7 scenario of the spec. -/
def resetDemoState : State :=
  { n := 2
    graph := fun u =>
      if u = 0 then [⟨0, 1, 0, 1, 1⟩]
      else if u = 1 then [⟨1, 0, 0, -1, 1⟩]
      else []
    absorbed := fun u => if u = 1 then 1 else 0
    sink := fun u => if u = 1 then 1 else 0
    height := fun _ => 0
    nextEdgeIdx := fun _ => 0 }

/-- C2 (code bug): after `reset()` the zeroing of per-vertex state does
happen, but the edge flow is NOT zeroed: the loop `for (auto edge : graph[u])
edge.flow = 0;` copies each edge, so on the concrete state `resetDemoState`
the flow of the edge (0,1) is still 1 after `reset`, contradicting the claim
that every edge's flow is zero.  Capacities and the adjacency structure are
(trivially) unchanged. -/
theorem reset_leaves_flow_nonzero :
    (((reset resetDemoState).graph 0).getD 0 default).flow = 1 ∧
    ¬ (((reset resetDemoState).graph 0).getD 0 default).flow = 0 ∧
    (reset resetDemoState).absorbed 1 = 0 ∧
    (reset resetDemoState).sink 1 = 0 ∧
    (reset resetDemoState).nextEdgeIdx 0 = 0 ∧
    (reset resetDemoState).graph 0 = resetDemoState.graph 0 ∧
    (reset resetDemoState).graph 1 = resetDemoState.graph 1 := by
  decide

/-- C9: in any graph built by a sequence of `addEdge` calls, every half-edge
`e = g[u][i]` satisfies `e.from = u`, its `backIdx` is a valid index into
`g[e.to]`, and the half-edge found there is its reverse: `reverse(e).to =
e.from`, `reverse(e).from = e.to`, and the two back indices point at each
other (`reverse(e).backIdx = i`). -/
theorem addEdge_edge_symmetry (es : List (ℕ × ℕ × ℤ)) (u i : ℕ)
    (hi : i < (buildGraph es u).length) :
    ((buildGraph es u).getD i default).src = u ∧
    ((buildGraph es u).getD i default).backIdx
      < (buildGraph es ((buildGraph es u).getD i default).dst).length ∧
    ((buildGraph es ((buildGraph es u).getD i default).dst).getD
        ((buildGraph es u).getD i default).backIdx default).dst
      = ((buildGraph es u).getD i default).src ∧
    ((buildGraph es ((buildGraph es u).getD i default).dst).getD
        ((buildGraph es u).getD i default).backIdx default).src
      = ((buildGraph es u).getD i default).dst ∧
    ((buildGraph es ((buildGraph es u).getD i default).dst).getD
        ((buildGraph es u).getD i default).backIdx default).backIdx
      = i := by
  obtain ⟨hsrc, hb, h1, h2, h3⟩ := edgeSymm_buildGraph es u i hi
  have hgetD : (buildGraph es u).getD i default = (buildGraph es u).get ⟨i, hi⟩ := by
    rw [List.getD_eq_getElem _ _ hi]
    rfl
  rw [hgetD]
  refine ⟨hsrc, hb, ?_⟩
  have hgetD2 : (buildGraph es ((buildGraph es u).get ⟨i, hi⟩).dst).getD
      ((buildGraph es u).get ⟨i, hi⟩).backIdx default
      = (buildGraph es ((buildGraph es u).get ⟨i, hi⟩).dst).get
          ⟨((buildGraph es u).get ⟨i, hi⟩).backIdx, hb⟩ := by
    rw [List.getD_eq_getElem _ _ hb]
    rfl
  rw [hgetD2]
  exact ⟨h1, h2, h3⟩

/-- Witness for `addEdge_edge_symmetry`: the graph built by a single call
`addEdge(0,1,1)`, looking at half-edge 0 of vertex 0. -/
theorem addEdge_edge_symmetry_witness :
    0 < (buildGraph [(0, 1, 1)] 0).length ∧
    (((buildGraph [(0, 1, 1)] 0).getD 0 default).src = 0 ∧
     ((buildGraph [(0, 1, 1)] 0).getD 0 default).backIdx
       < (buildGraph [(0, 1, 1)] ((buildGraph [(0, 1, 1)] 0).getD 0 default).dst).length ∧
     ((buildGraph [(0, 1, 1)] ((buildGraph [(0, 1, 1)] 0).getD 0 default).dst).getD
         ((buildGraph [(0, 1, 1)] 0).getD 0 default).backIdx default).dst
       = ((buildGraph [(0, 1, 1)] 0).getD 0 default).src ∧
     ((buildGraph [(0, 1, 1)] ((buildGraph [(0, 1, 1)] 0).getD 0 default).dst).getD
         ((buildGraph [(0, 1, 1)] 0).getD 0 default).backIdx default).src
       = ((buildGraph [(0, 1, 1)] 0).getD 0 default).dst ∧
     ((buildGraph [(0, 1, 1)] ((buildGraph [(0, 1, 1)] 0).getD 0 default).dst).getD
         ((buildGraph [(0, 1, 1)] 0).getD 0 default).backIdx default).backIdx
       = 0) :=
  ⟨by decide, addEdge_edge_symmetry [(0, 1, 1)] 0 0 (by decide)⟩

/-- Decrement-or-increment helper: add `d` to the flow of the half-edge at
position `i` of `u`'s adjacency list (out-of-range positions are left
unchanged, mirroring that the C++ only ever touches valid references). -/
def updateFlowAt (g : ℕ → List Edge) (u i : ℕ) (d : ℤ) : ℕ → List Edge :=
  Function.update g u
    ((g u).set i
      (let e := (g u).getD i default
       { e with flow := e.flow + d }))

/-- One pass of the edge loop inside the DFS lambda of `UnitFlow::matching`
(unit_flow.cpp lines 106-126), parameterized by the recursive call `child`
(the DFS at the next depth).  For each remaining edge index: skip edges with
`flow <= 0`; if the head has positive incoming flow and positive sink
capacity, decrement that edge's flow and the head's `absorbed` and return the
head as the match; otherwise recurse into the head and, on success, decrement
this edge's flow and propagate the match. -/
def edgeScan (child : State → (ℕ → Bool) → ℕ → State × (ℕ → Bool) × Option ℕ)
    (st : State) (vis : ℕ → Bool) (u : ℕ) :
    List ℕ → State × (ℕ → Bool) × Option ℕ
  | [] => (st, vis, none)
  | i :: is =>
    let e := (st.graph u).getD i default
    if e.flow ≤ 0 then edgeScan child st vis u is
    else if 0 < flowIn st e.dst ∧ 0 < st.sink e.dst then
      ({ st with
           graph := updateFlowAt st.graph u i (-1)
           absorbed := Function.update st.absorbed e.dst (st.absorbed e.dst - 1) },
       vis, some e.dst)
    else
      match child st vis e.dst with
      | (st2, vis2, some m) =>
        ({ st2 with graph := updateFlowAt st2.graph u i (-1) }, vis2, some m)
      | (st2, vis2, none) => edgeScan child st2 vis2 u is

/-- The DFS lambda of `UnitFlow::matching` (unit_flow.cpp lines 103-128).
The C++ recursion terminates because each call marks its vertex visited; here
the same bound is made explicit with a fuel argument (a search is run with
fuel `n + 1`, which the visited marking keeps from ever reaching 0 on states
whose edges stay inside the vertex range). -/
def dfs : ℕ → State → (ℕ → Bool) → ℕ → State × (ℕ → Bool) × Option ℕ
  | 0, st, vis, _ => (st, vis, none)
  | fuel + 1, st, vis, u =>
    if vis u then (st, vis, none)
    else edgeScan (dfs fuel) st (Function.update vis u true) u
      (List.range (st.graph u).length)

/-- The `search` lambda (unit_flow.cpp lines 103-128): a DFS from `start`
with a fresh `visited` vector. -/
def search (st : State) (start : ℕ) : State × Option ℕ :=
  let r := dfs (st.n + 1) st (fun _ => false) start
  (r.1, r.2.2)

/-- `UnitFlow::matching` (unit_flow.cpp lines 91-137): for each source in
turn, run `search`; on success record the pair `(source, match)`.  The state
threading carries the flow decrements from one search into the next. -/
def matching (st : State) (sources : List ℕ) : State × List (ℕ × ℕ) :=
  sources.foldl
    (fun acc u =>
      match search acc.1 u with
      | (st2, some v) => (st2, acc.2 ++ [(u, v)])
      | (st2, none) => (st2, acc.2))
    (st, [])

/-- A flow state in which two units of flow enter the same sink vertex 2 from
two different sources, and vertex 2 has sink capacity 2: three vertices,
edges (0,2) and (1,2) each carrying one unit of flow. -/
def doubleSinkState : State :=
  { n := 3
    graph := fun u =>
      if u = 0 then [⟨0, 2, 0, 1, 5⟩]
      else if u = 1 then [⟨1, 2, 0, 1, 5⟩]
      else if u = 2 then [⟨2, 0, 0, -1, 5⟩, ⟨2, 1, 1, -1, 5⟩]
      else []
    absorbed := fun u => if u = 2 then 2 else 0
    sink := fun u => if u = 2 then 2 else 0
    height := fun _ => 0
    nextEdgeIdx := fun _ => 0 }

/-- C3 counterexample: on `doubleSinkState` with the distinct sources
`[0, 1]`, `matching` returns `[(0,2), (1,2)]` — the second coordinates are
NOT distinct and vertex 2 appears in two pairs, refuting the claim as
stated. -/
theorem matching_second_coords_clash :
    (matching doubleSinkState [0, 1]).2 = [(0, 2), (1, 2)] ∧
    [0, 1].Nodup ∧
    ¬ ((matching doubleSinkState [0, 1]).2.map Prod.snd).Nodup := by
  decide

lemma matching_aux_fst (sources : List ℕ) :
    ∀ (st : State) (acc : List (ℕ × ℕ)),
      ∃ t : List (ℕ × ℕ),
        (sources.foldl
          (fun acc u =>
            match search acc.1 u with
            | (st2, some v) => (st2, acc.2 ++ [(u, v)])
            | (st2, none) => (st2, acc.2))
          (st, acc)).2 = acc ++ t ∧ (t.map Prod.fst).Sublist sources := by
  induction sources with
  | nil =>
    intro st acc
    exact ⟨[], by simp, by simp⟩
  | cons u rest ih =>
    intro st acc
    simp only [List.foldl_cons]
    rcases hs : search st u with ⟨st2, ov⟩
    rcases ov with _ | v
    · obtain ⟨t, ht, hsub⟩ := ih st2 acc
      exact ⟨t, ht, hsub.cons u⟩
    · obtain ⟨t, ht, hsub⟩ := ih st2 (acc ++ [(u, v)])
      refine ⟨(u, v) :: t, ?_, ?_⟩
      · rw [ht]
        simp
      · simpa using hsub.cons₂ u

/-- C3 amended: for every flow state and every list of distinct sources, the
first coordinates of the pairs returned by `matching` are distinct (each
source contributes at most one pair, labelled by itself); the second
coordinates need not be distinct (`matching_second_coords_clash`). -/
theorem matching_fst_coords_distinct (st : State) (sources : List ℕ)
    (hnd : sources.Nodup) :
    ((matching st sources).2.map Prod.fst).Nodup := by
  obtain ⟨t, ht, hsub⟩ := matching_aux_fst sources st []
  unfold matching
  rw [ht]
  simpa using hnd.sublist hsub

/-- Witness for `matching_fst_coords_distinct` at the concrete input of the
counterexample state: the sources `[0, 1]` are distinct and the returned
first coordinates are distinct. -/
theorem matching_fst_coords_distinct_witness :
    ([0, 1] : List ℕ).Nodup ∧
    ((matching doubleSinkState [0, 1]).2.map Prod.fst).Nodup :=
  ⟨by decide, matching_fst_coords_distinct doubleSinkState [0, 1] (by decide)⟩


/-- Reading through `List.set`: positions other than the (in-range) set
position are unchanged. -/
lemma getD_set_edge (l : List Edge) (i j : ℕ) (a : Edge) :
    (l.set i a).getD j default = if i = j ∧ i < l.length then a else l.getD j default := by
  rcases Nat.lt_or_ge j l.length with hj | hj
  · have hj2 : j < (l.set i a).length := by simpa using hj
    rw [List.getD_eq_getElem _ _ hj, List.getD_eq_getElem _ _ hj2, List.getElem_set]
    by_cases h : i = j
    · simp [h, hj]
    · simp [h]
  · have h1 : (l.set i a).getD j default = default := by
      apply List.getD_eq_default
      simpa using hj
    have h2 : l.getD j default = default := List.getD_eq_default _ _ hj
    rw [h1, h2]
    have hn : ¬(i = j ∧ i < l.length) := by omega
    simp [hn]

/-- Summing a per-point function of an updated vector: additive form that
avoids natural-number subtraction. -/
lemma sum_update_add {α : Type} {n u : ℕ} (hu : u < n)
    (F : ℕ → α → ℕ) (a : ℕ → α) (b : α) :
    (∑ x ∈ Finset.range n, F x (Function.update a u b x)) + F u (a u)
      = (∑ x ∈ Finset.range n, F x (a x)) + F u b := by
  have hm : u ∈ Finset.range n := Finset.mem_range.mpr hu
  have h1 : ∑ x ∈ Finset.range n, F x (Function.update a u b x)
      = F u (Function.update a u b u)
        + ∑ x ∈ (Finset.range n).erase u, F x (Function.update a u b x) :=
    (Finset.add_sum_erase _ _ hm).symm
  rw [Function.update_same] at h1
  have h2 : ∑ x ∈ Finset.range n, F x (a x)
      = F u (a u) + ∑ x ∈ (Finset.range n).erase u, F x (a x) :=
    (Finset.add_sum_erase _ _ hm).symm
  have h3 : ∑ x ∈ (Finset.range n).erase u, F x (Function.update a u b x)
      = ∑ x ∈ (Finset.range n).erase u, F x (a x) := by
    apply Finset.sum_congr rfl
    intro x hx
    rw [Function.update_noteq (Finset.ne_of_mem_erase hx)]
  rw [h1, h3, h2]
  omega

/-- Length of a filter over a cons. -/
lemma filter_cons_length {α : Type} (c : α → Bool) (x : α) (l : List α) :
    ((x :: l).filter c).length
      = (l.filter c).length + (if c x then 1 else 0) := by
  rw [List.filter_cons]
  split <;> simp

/-- Ordered insertion into the priority queue, by the lexicographic order on
pairs that `std::priority_queue<QPair, ..., std::greater<QPair>>` pops in
increasing order (unit_flow.cpp lines 24-25). -/
def qinsert (p : ℕ × ℕ) : List (ℕ × ℕ) → List (ℕ × ℕ)
  | [] => [p]
  | q :: rest =>
    if p.1 < q.1 ∨ (p.1 = q.1 ∧ p.2 ≤ q.2) then p :: q :: rest
    else q :: qinsert p rest

lemma filter_qinsert_length (c : ℕ × ℕ → Bool) (p : ℕ × ℕ) (q : List (ℕ × ℕ)) :
    ((qinsert p q).filter c).length
      = (q.filter c).length + (if c p then 1 else 0) := by
  induction q with
  | nil =>
    simp only [qinsert, List.filter]
    split
    · next heq => simp [heq]
    · next heq => simp [heq]
  | cons x rest ih =>
    rw [qinsert]
    split
    · rw [filter_cons_length]
    · rw [filter_cons_length, filter_cons_length c x rest, ih]
      omega

lemma qinsert_length (p : ℕ × ℕ) (q : List (ℕ × ℕ)) :
    (qinsert p q).length = q.length + 1 := by
  induction q with
  | nil => rfl
  | cons x rest ih =>
    rw [qinsert]
    split
    · rfl
    · simpa using ih

lemma qinsert_mem {p x : ℕ × ℕ} {q : List (ℕ × ℕ)} (hx : x ∈ qinsert p q) :
    x = p ∨ x ∈ q := by
  induction q with
  | nil => simpa [qinsert] using hx
  | cons y rest ih =>
    rw [qinsert] at hx
    split at hx
    · rcases List.mem_cons.mp hx with h | h
      · exact Or.inl h
      · exact Or.inr h
    · rcases List.mem_cons.mp hx with h | h
      · exact Or.inr (by simp [h])
      · rcases ih h with h2 | h2
        · exact Or.inl h2
        · exact Or.inr (by simp [h2])

/-- Structural well-formedness of the adjacency lists inside the vertex range:
each stored half-edge records its owner, stays inside the range, and carries a
valid back index (this is what construction by `addEdge` guarantees and what
the push-relabel loop relies on). -/
def WfAdj (st : State) : Prop :=
  ∀ u, u < st.n → ∀ i, i < (st.graph u).length →
    ((st.graph u).getD i default).src = u ∧
    ((st.graph u).getD i default).dst < st.n ∧
    ((st.graph u).getD i default).backIdx
      < (st.graph ((st.graph u).getD i default).dst).length

instance (st : State) : Decidable (WfAdj st) := by
  unfold WfAdj
  infer_instance

/-- The `nextEdgeIdx` cursor stays inside the adjacency list (the C++
maintains this: it starts at 0, is only advanced while strictly below
`size()-1`, and is reset to 0 on relabel). -/
def WfNext (st : State) : Prop :=
  ∀ u, u < st.n → st.graph u ≠ [] → st.nextEdgeIdx u < (st.graph u).length

instance (st : State) : Decidable (WfNext st) := by
  unfold WfNext
  infer_instance

/-- The edge currently pointed at by a vertex cursor:
`graph[u][nextEdgeIdx[u]]` (unit_flow.cpp line 41). -/
def curEdge (st : State) (u : ℕ) : Edge :=
  (st.graph u).getD (st.nextEdgeIdx u) default

/-- The push guard of unit_flow.cpp lines 42-43:
`excess(e.from) > 0 && residual(e) > 0 && height[e.from] == height[e.to]+1`. -/
def pushCond (st : State) (e : Edge) : Prop :=
  0 < excess st e.src ∧ 0 < residual e ∧ st.height e.src = st.height e.dst + 1

instance (st : State) (e : Edge) : Decidable (pushCond st e) := by
  unfold pushCond
  infer_instance

/-- The pushed amount `delta = min(excess(e.from), residual(e), degree(e.to))`
(unit_flow.cpp lines 46-47). -/
def pushDelta (st : State) (e : Edge) : ℤ :=
  min (excess st e.src) (min (residual e) (degree st e.dst : ℤ))

/-- State change of a push (unit_flow.cpp lines 49-54): `delta` is added to
the current edge's flow and subtracted from its reverse, `absorbed(e.from)`
decreases by `delta` and `absorbed(e.to)` increases by `delta`. -/
def pushState (st : State) (u : ℕ) : State :=
  let e := curEdge st u
  let delta := pushDelta st e
  { st with
      graph := updateFlowAt (updateFlowAt st.graph u (st.nextEdgeIdx u) delta)
                 e.dst e.backIdx (-delta)
      absorbed :=
        Function.update
          (Function.update st.absorbed e.src (st.absorbed e.src - delta))
          e.dst
          (Function.update st.absorbed e.src (st.absorbed e.src - delta) e.dst
            + delta) }

/-- Queue change of a push (unit_flow.cpp lines 56-59): pop the top entry if
`height[e.from] >= maxH` or the post-push excess of `e.from` is zero; then
enqueue `e.to` if its height is below the cap and its post-push excess is
positive. -/
def pushQueue (maxH : ℕ) (st : State) (p : ℕ × ℕ) (rest : List (ℕ × ℕ)) :
    List (ℕ × ℕ) :=
  let e := curEdge st p.2
  let st2 := pushState st p.2
  let q1 := if maxH ≤ st.height e.src ∨ excess st2 e.src = 0 then rest
            else p :: rest
  if st.height e.dst < maxH ∧ 0 < excess st2 e.dst then
    qinsert (st.height e.dst, e.dst) q1
  else q1

/-- State change of a relabel (unit_flow.cpp lines 62-64): `height(e.from)`
increases by one and its cursor is reset to 0. -/
def relabelState (st : State) (u : ℕ) : State :=
  let e := curEdge st u
  { st with
      height := Function.update st.height e.src (st.height e.src + 1)
      nextEdgeIdx := Function.update st.nextEdgeIdx e.src 0 }

/-- Queue change of a relabel (unit_flow.cpp lines 62-67): the top entry is
popped and the vertex re-enqueued only if its new height is below the cap. -/
def relabelQueue (maxH : ℕ) (st : State) (u : ℕ) (rest : List (ℕ × ℕ)) :
    List (ℕ × ℕ) :=
  let e := curEdge st u
  if (relabelState st u).height e.src < maxH then
    qinsert ((relabelState st u).height e.src, e.src) rest
  else rest

/-- State change of a cursor advance (unit_flow.cpp line 69). -/
def advanceState (st : State) (u : ℕ) : State :=
  let e := curEdge st u
  { st with
      nextEdgeIdx := Function.update st.nextEdgeIdx e.src
        (st.nextEdgeIdx e.src + 1) }

/-- One iteration of the while loop of `UnitFlow::compute` (unit_flow.cpp
lines 33-71), acting on the state and the queue whose top entry is `p`
(stored key `p.1`, vertex `p.2`) and remainder `rest`: discard an edge-less
vertex; push along the current edge when the push guard holds; relabel when
the cursor sits on the last edge; otherwise advance the cursor. -/
def loopBody (maxH : ℕ) (st : State) (p : ℕ × ℕ) (rest : List (ℕ × ℕ)) :
    State × List (ℕ × ℕ) :=
  if st.graph p.2 = [] then (st, rest)
  else if pushCond st (curEdge st p.2) then
    (pushState st p.2, pushQueue maxH st p rest)
  else if (st.nextEdgeIdx (curEdge st p.2).src : ℤ)
      = ((st.graph (curEdge st p.2).src).length : ℤ) - 1 then
    (relabelState st p.2, relabelQueue maxH st p.2 rest)
  else (advanceState st p.2, p :: rest)

/-- Termination measure, first component: total headroom of the height labels
below the cap.  A relabel below the cap decreases it. -/
def measA (st : State) (maxH : ℕ) : ℕ :=
  ∑ u ∈ Finset.range st.n, (maxH - st.height u)

/-- Termination measure, second component: queue entries whose vertex already
sits at or above the cap (such entries are only consumed, never created). -/
def measS (st : State) (q : List (ℕ × ℕ)) (maxH : ℕ) : ℕ :=
  (q.filter (fun p => decide (maxH ≤ st.height p.2))).length

/-- Termination measure, third component: excess weighted by height.  A push
moves excess exactly one level down, so it strictly decreases this. -/
def measPhi (st : State) : ℕ :=
  ∑ u ∈ Finset.range st.n, (excess st u).toNat * st.height u

/-- Termination measure, fifth component: total remaining cursor headroom. -/
def measN (st : State) : ℕ :=
  ∑ u ∈ Finset.range st.n, ((st.graph u).length - st.nextEdgeIdx u)


/-- Two adjacency functions with identical structure (lengths and the
structural fields of every slot), possibly differing in flows. -/
def SameShape (g g2 : ℕ → List Edge) : Prop :=
  ∀ w : ℕ, (g2 w).length = (g w).length ∧
    ∀ i : ℕ, ((g2 w).getD i default).src = ((g w).getD i default).src ∧
             ((g2 w).getD i default).dst = ((g w).getD i default).dst ∧
             ((g2 w).getD i default).backIdx = ((g w).getD i default).backIdx

lemma sameShape_refl (g : ℕ → List Edge) : SameShape g g :=
  fun _ => ⟨rfl, fun _ => ⟨rfl, rfl, rfl⟩⟩

lemma sameShape_trans {g g2 g3 : ℕ → List Edge}
    (h1 : SameShape g g2) (h2 : SameShape g2 g3) : SameShape g g3 := by
  intro w
  obtain ⟨hl1, hf1⟩ := h1 w
  obtain ⟨hl2, hf2⟩ := h2 w
  refine ⟨hl2.trans hl1, fun i => ?_⟩
  obtain ⟨a1, b1, c1⟩ := hf1 i
  obtain ⟨a2, b2, c2⟩ := hf2 i
  exact ⟨a2.trans a1, b2.trans b1, c2.trans c1⟩

lemma sameShape_updateFlowAt (g : ℕ → List Edge) (u i : ℕ) (d : ℤ) :
    SameShape g (updateFlowAt g u i d) := by
  intro w
  by_cases hw : w = u
  · subst hw
    unfold updateFlowAt
    rw [Function.update_same]
    constructor
    · exact List.length_set _ _ _
    · intro j
      rw [getD_set_edge]
      split
      · next hij =>
        obtain ⟨hij1, _⟩ := hij
        subst hij1
        exact ⟨rfl, rfl, rfl⟩
      · exact ⟨rfl, rfl, rfl⟩
  · unfold updateFlowAt
    rw [Function.update_noteq hw]
    exact ⟨rfl, fun _ => ⟨rfl, rfl, rfl⟩⟩

lemma wfAdj_transport {st st2 : State} (hn : st2.n = st.n)
    (hs : SameShape st.graph st2.graph) (h : WfAdj st) : WfAdj st2 := by
  intro u hu i hi
  rw [hn] at hu
  obtain ⟨hlu, hfu⟩ := hs u
  have hi0 : i < (st.graph u).length := by rw [← hlu]; exact hi
  obtain ⟨hsrc, hdst, hb⟩ := h u hu i hi0
  obtain ⟨ha, hb2, hc⟩ := hfu i
  refine ⟨ha.trans hsrc, ?_, ?_⟩
  · rw [hn, hb2]
    exact hdst
  · rw [hc, hb2]
    obtain ⟨hld, _⟩ := hs (((st.graph u).getD i default).dst)
    rw [hld]
    exact hb

lemma pushState_n (st : State) (u : ℕ) : (pushState st u).n = st.n := rfl

lemma pushState_height (st : State) (u : ℕ) :
    (pushState st u).height = st.height := rfl

lemma pushState_sink (st : State) (u : ℕ) : (pushState st u).sink = st.sink := rfl

lemma pushState_next (st : State) (u : ℕ) :
    (pushState st u).nextEdgeIdx = st.nextEdgeIdx := rfl

lemma pushState_shape (st : State) (u : ℕ) :
    SameShape st.graph (pushState st u).graph :=
  sameShape_trans (sameShape_updateFlowAt _ _ _ _) (sameShape_updateFlowAt _ _ _ _)

lemma loopBody_n (maxH : ℕ) (st : State) (p : ℕ × ℕ) (rest : List (ℕ × ℕ)) :
    (loopBody maxH st p rest).1.n = st.n := by
  unfold loopBody
  split
  · rfl
  split
  · rfl
  split
  · rfl
  · rfl

lemma loopBody_shape (maxH : ℕ) (st : State) (p : ℕ × ℕ) (rest : List (ℕ × ℕ)) :
    SameShape st.graph (loopBody maxH st p rest).1.graph := by
  unfold loopBody
  split
  · exact sameShape_refl _
  split
  · exact pushState_shape st p.2
  split
  · exact sameShape_refl _
  · exact sameShape_refl _

lemma loopBody_wfAdj {maxH : ℕ} {st : State} {p : ℕ × ℕ} {rest : List (ℕ × ℕ)}
    (hadj : WfAdj st) : WfAdj (loopBody maxH st p rest).1 :=
  wfAdj_transport (loopBody_n maxH st p rest) (loopBody_shape maxH st p rest) hadj

/-- Facts about the current edge available once the invariants hold. -/
lemma curEdge_facts {st : State} (hadj : WfAdj st) (hnext : WfNext st)
    {u : ℕ} (hu : u < st.n) (hne : st.graph u ≠ []) :
    (curEdge st u).src = u ∧ (curEdge st u).dst < st.n ∧
    (curEdge st u).backIdx < (st.graph (curEdge st u).dst).length := by
  have hidx : st.nextEdgeIdx u < (st.graph u).length := hnext u hu hne
  exact hadj u hu (st.nextEdgeIdx u) hidx

lemma loopBody_wfNext {maxH : ℕ} {st : State} {p : ℕ × ℕ} {rest : List (ℕ × ℕ)}
    (hadj : WfAdj st) (hnext : WfNext st) (hu : p.2 < st.n) :
    WfNext (loopBody maxH st p rest).1 := by
  unfold loopBody
  split
  · exact hnext
  next hne =>
  have hfacts := curEdge_facts hadj hnext hu hne
  have hsrc : (curEdge st p.2).src = p.2 := hfacts.1
  split
  · -- push: lengths and cursors unchanged
    dsimp only
    intro w hw hw2
    rw [pushState_n] at hw
    rw [pushState_next]
    obtain ⟨hl, _⟩ := pushState_shape st p.2 w
    have hne2 : st.graph w ≠ [] := by
      intro hcon
      apply hw2
      apply List.length_eq_zero.mp
      rw [hl, hcon]
      rfl
    have := hnext w hw hne2
    omega
  split
  · -- relabel: cursor reset to 0 at a vertex with a nonempty list
    dsimp only
    intro w hw hw2
    unfold relabelState
    unfold relabelState at hw2
    dsimp only at hw2 ⊢
    by_cases hwsrc : w = (curEdge st p.2).src
    · rw [hwsrc] at hw2 ⊢
      rw [Function.update_same]
      have : (st.graph (curEdge st p.2).src).length ≠ 0 := by
        intro hcon
        exact hw2 (List.length_eq_zero.mp hcon)
      omega
    · rw [Function.update_noteq hwsrc]
      exact hnext w hw hw2
  · -- advance: cursor strictly below the last index moves up one
    next hpush hlast =>
    dsimp only
    intro w hw hw2
    unfold advanceState
    unfold advanceState at hw2
    dsimp only at hw2 ⊢
    by_cases hwsrc : w = (curEdge st p.2).src
    · rw [hwsrc] at hw2 ⊢
      rw [Function.update_same]
      have h1 : st.nextEdgeIdx p.2 < (st.graph p.2).length := hnext p.2 hu hne
      rw [hsrc] at hlast ⊢
      omega
    · rw [Function.update_noteq hwsrc]
      exact hnext w hw hw2

lemma loopBody_qbound {maxH : ℕ} {st : State} {p : ℕ × ℕ} {rest : List (ℕ × ℕ)}
    (hadj : WfAdj st) (hnext : WfNext st)
    (hq : ∀ x ∈ p :: rest, x.2 < st.n) :
    ∀ x ∈ (loopBody maxH st p rest).2, x.2 < st.n := by
  have hu : p.2 < st.n := hq p (by simp)
  have hrest : ∀ x ∈ rest, x.2 < st.n := by
    intro x hx
    exact hq x (by simp [hx])
  unfold loopBody
  split
  · exact hrest
  next hne =>
  have hfacts := curEdge_facts hadj hnext hu hne
  split
  · -- push
    intro x hx
    unfold pushQueue at hx
    dsimp only at hx
    have hq1 : ∀ y ∈ (if maxH ≤ st.height (curEdge st p.2).src ∨
        excess (pushState st p.2) (curEdge st p.2).src = 0 then rest
        else p :: rest), y.2 < st.n := by
      intro y hy
      split at hy
      · exact hrest y hy
      · exact hq y hy
    split at hx
    · rcases qinsert_mem hx with h1 | h1
      · rw [h1]
        exact hfacts.2.1
      · exact hq1 x h1
    · exact hq1 x hx
  split
  · -- relabel
    intro x hx
    unfold relabelQueue at hx
    dsimp only at hx
    split at hx
    · rcases qinsert_mem hx with h1 | h1
      · rw [h1]
        dsimp only
        rw [hfacts.1]
        exact hu
      · exact hrest x h1
    · exact hrest x hx
  · exact hq

lemma excess_pos_ne {st : State} {e : Edge} (hc : pushCond st e) :
    e.src ≠ e.dst := by
  intro h
  have := hc.2.2
  rw [h] at this
  omega

/-- A push strictly decreases the height-weighted excess potential: `delta`
units of excess move from height `h+1` down to height `h`. -/
lemma measPhi_push {st : State} {p : ℕ × ℕ}
    (hadj : WfAdj st) (hnext : WfNext st) (hu : p.2 < st.n)
    (hne : st.graph p.2 ≠ []) (hc : pushCond st (curEdge st p.2)) :
    measPhi (pushState st p.2) < measPhi st := by
  obtain ⟨hsrc, hvlt, hblt⟩ := curEdge_facts hadj hnext hu hne
  set e := curEdge st p.2 with he
  set delta := pushDelta st e with hdelta
  have hsn : e.src < st.n := by rw [hsrc]; exact hu
  have hneq : e.src ≠ e.dst := excess_pos_ne hc
  have hdeg : 1 ≤ (degree st e.dst : ℤ) := by
    have h0 : 0 < (st.graph e.dst).length := by omega
    unfold degree
    omega
  have hd1 : 1 ≤ delta := by
    rw [hdelta]
    unfold pushDelta
    have h1 := hc.1
    have h2 := hc.2.1
    omega
  have hda : delta ≤ st.absorbed e.src - st.sink e.src := by
    rw [hdelta]
    unfold pushDelta
    exact min_le_left _ _
  set F : ℕ → ℤ → ℕ := fun x w => (w - st.sink x).toNat * st.height x with hF
  set a1 : ℕ → ℤ :=
    Function.update st.absorbed e.src (st.absorbed e.src - delta) with ha1
  set a2 : ℕ → ℤ := Function.update a1 e.dst (a1 e.dst + delta) with ha2
  have hphi2 : measPhi (pushState st p.2)
      = ∑ x ∈ Finset.range st.n, F x (a2 x) := rfl
  have hphi : measPhi st = ∑ x ∈ Finset.range st.n, F x (st.absorbed x) := rfl
  have hs1 : (∑ x ∈ Finset.range st.n, F x (a1 x)) + F e.src (st.absorbed e.src)
      = (∑ x ∈ Finset.range st.n, F x (st.absorbed x))
        + F e.src (st.absorbed e.src - delta) :=
    sum_update_add hsn F st.absorbed _
  have hs2 : (∑ x ∈ Finset.range st.n, F x (a2 x)) + F e.dst (a1 e.dst)
      = (∑ x ∈ Finset.range st.n, F x (a1 x)) + F e.dst (a1 e.dst + delta) :=
    sum_update_add hvlt F a1 _
  have ha1v : a1 e.dst = st.absorbed e.dst := by
    rw [ha1, Function.update_noteq (Ne.symm hneq)]
  have hhv : st.height e.src = st.height e.dst + 1 := hc.2.2
  -- the scalar inequality at the two touched vertices
  have hsc : F e.src (st.absorbed e.src - delta) + F e.dst (st.absorbed e.dst + delta)
      < F e.src (st.absorbed e.src) + F e.dst (st.absorbed e.dst) := by
    rw [hF]
    dsimp only
    rw [hhv]
    set hv := st.height e.dst with hhveq
    set A1 := (st.absorbed e.src - st.sink e.src).toNat with hA1
    set A2 := (st.absorbed e.src - delta - st.sink e.src).toNat with hA2
    set B1 := (st.absorbed e.dst - st.sink e.dst).toNat with hB1
    set B2 := (st.absorbed e.dst + delta - st.sink e.dst).toNat with hB2
    set D := delta.toNat with hD
    have hexc : 0 < st.absorbed e.src - st.sink e.src := hc.1
    clear hs1 hs2
    have hA : A1 = A2 + D := by
      rw [hA1, hA2, hD]
      omega
    have hB : B2 ≤ B1 + D := by
      rw [hB1, hB2, hD]
      omega
    have hD1 : 1 ≤ D := by
      rw [hD]
      omega
    have hm : B2 * hv ≤ (B1 + D) * hv := Nat.mul_le_mul_right hv hB
    have e1 : (B1 + D) * hv = B1 * hv + D * hv := by ring
    have e2 : (A2 + D) * (hv + 1) = A2 * (hv + 1) + D * hv + D := by ring
    rw [hA]
    omega
  rw [ha1v] at hs2
  rw [hphi2, hphi]
  omega

/-- Every iteration of the loop strictly decreases the lexicographic measure
`(measA, measS, measPhi, queue length, measN)`. -/
lemma loopBody_decreases (maxH : ℕ) (st : State) (p : ℕ × ℕ)
    (rest : List (ℕ × ℕ)) (hadj : WfAdj st) (hnext : WfNext st)
    (hu : p.2 < st.n) :
    measA (loopBody maxH st p rest).1 maxH < measA st maxH ∨
    (measA (loopBody maxH st p rest).1 maxH = measA st maxH ∧
      (measS (loopBody maxH st p rest).1 (loopBody maxH st p rest).2 maxH
          < measS st (p :: rest) maxH ∨
       (measS (loopBody maxH st p rest).1 (loopBody maxH st p rest).2 maxH
          = measS st (p :: rest) maxH ∧
        (measPhi (loopBody maxH st p rest).1 < measPhi st ∨
         (measPhi (loopBody maxH st p rest).1 = measPhi st ∧
          ((loopBody maxH st p rest).2.length < (p :: rest).length ∨
           ((loopBody maxH st p rest).2.length = (p :: rest).length ∧
            measN (loopBody maxH st p rest).1 < measN st))))))) := by
  unfold loopBody
  split
  · -- empty adjacency list: pop
    dsimp only
    right
    refine ⟨rfl, ?_⟩
    have hS : measS st rest maxH ≤ measS st (p :: rest) maxH := by
      unfold measS
      rw [filter_cons_length]
      omega
    rcases Nat.lt_or_ge (measS st rest maxH) (measS st (p :: rest) maxH) with h | h
    · exact Or.inl h
    · right
      refine ⟨by omega, Or.inr ⟨rfl, Or.inl (by simp)⟩⟩
  next hne =>
  have hfacts := curEdge_facts hadj hnext hu hne
  have hsrc : (curEdge st p.2).src = p.2 := hfacts.1
  split
  · -- push
    next hc =>
    dsimp only
    right
    refine ⟨rfl, ?_⟩
    have hphi := measPhi_push hadj hnext hu hne hc
    have hS : measS (pushState st p.2) (pushQueue maxH st p rest) maxH
        ≤ measS st (p :: rest) maxH := by
      have hheq : (pushState st p.2).height = st.height := rfl
      unfold measS pushQueue
      dsimp only
      rw [hheq]
      have hq1 : ((if maxH ≤ st.height (curEdge st p.2).src ∨
          excess (pushState st p.2) (curEdge st p.2).src = 0 then rest
          else p :: rest).filter
            (fun q => decide (maxH ≤ st.height q.2))).length
          ≤ ((p :: rest).filter (fun q => decide (maxH ≤ st.height q.2))).length := by
        split
        · rw [filter_cons_length]
          omega
        · omega
      split
      · next hins =>
        rw [filter_qinsert_length]
        have : ¬ (maxH ≤ st.height (curEdge st p.2).dst) := by omega
        simp only [this, decide_eq_true_eq, if_false]
        simpa using hq1
      · exact hq1
    rcases Nat.lt_or_ge
      (measS (pushState st p.2) (pushQueue maxH st p rest) maxH)
      (measS st (p :: rest) maxH) with h | h
    · exact Or.inl h
    · exact Or.inr ⟨by omega, Or.inl hphi⟩
  split
  · -- relabel
    next hc hlast =>
    dsimp only
    have hsn : (curEdge st p.2).src < st.n := by
      rw [hsrc]; exact hu
    have hA : measA (relabelState st p.2) maxH + (maxH - st.height (curEdge st p.2).src)
        = measA st maxH + (maxH - (st.height (curEdge st p.2).src + 1)) := by
      unfold measA relabelState
      dsimp only
      exact sum_update_add hsn (fun _ w => maxH - w) st.height _
    rcases Nat.lt_or_ge (st.height (curEdge st p.2).src) maxH with hlt | hge
    · -- relabel below the cap: the headroom strictly decreases
      left
      omega
    · -- relabel at or above the cap: a stale high entry is consumed
      right
      have hAeq : measA (relabelState st p.2) maxH = measA st maxH := by omega
      refine ⟨hAeq, Or.inl ?_⟩
      have hq2 : relabelQueue maxH st p.2 rest = rest := by
        unfold relabelQueue relabelState
        dsimp only
        rw [Function.update_same]
        have : ¬ (st.height (curEdge st p.2).src + 1 < maxH) := by omega
        simp [this]
      rw [hq2]
      have hcongr : (rest.filter
            (fun q => decide (maxH ≤ (relabelState st p.2).height q.2))).length
          = (rest.filter (fun q => decide (maxH ≤ st.height q.2))).length := by
        congr 1
        apply List.filter_congr
        intro x hx
        unfold relabelState
        dsimp only
        by_cases hxs : x.2 = (curEdge st p.2).src
        · rw [hxs, Function.update_same]
          have h1 : maxH ≤ st.height (curEdge st p.2).src + 1 := by omega
          have h2 : maxH ≤ st.height (curEdge st p.2).src := hge
          simp [h1, h2]
        · rw [Function.update_noteq hxs]
      unfold measS
      rw [hcongr, filter_cons_length]
      have hp : maxH ≤ st.height p.2 := by
        rw [← hsrc]
        exact hge
      simp [hp]
  · -- advance
    next hc hlast =>
    dsimp only
    right
    refine ⟨rfl, Or.inr ⟨rfl, Or.inr ⟨rfl, Or.inr ⟨rfl, ?_⟩⟩⟩⟩
    have hsn : (curEdge st p.2).src < st.n := by
      rw [hsrc]; exact hu
    have hN : measN (advanceState st p.2)
          + ((st.graph (curEdge st p.2).src).length
              - st.nextEdgeIdx (curEdge st p.2).src)
        = measN st
          + ((st.graph (curEdge st p.2).src).length
              - (st.nextEdgeIdx (curEdge st p.2).src + 1)) := by
      unfold measN advanceState
      dsimp only
      exact sum_update_add hsn (fun x w => (st.graph x).length - w) st.nextEdgeIdx _
    have hidx : st.nextEdgeIdx p.2 < (st.graph p.2).length := hnext p.2 hu hne
    rw [hsrc] at hN
    omega


/-- The while loop of `UnitFlow::compute` (unit_flow.cpp lines 33-71) as a
total function: it runs `loopBody` until the queue empties.  Termination is
proved by the lexicographic measure of `loopBody_decreases`; there is no fuel,
so well-definedness of this function IS the termination of the loop. -/
def pushRelabelLoop (maxH : ℕ) (st : State) (q : List (ℕ × ℕ))
    (hadj : WfAdj st) (hnext : WfNext st) (hq : ∀ x ∈ q, x.2 < st.n) : State :=
  match q with
  | [] => st
  | p :: rest =>
    pushRelabelLoop maxH (loopBody maxH st p rest).1 (loopBody maxH st p rest).2
      (loopBody_wfAdj hadj)
      (loopBody_wfNext hadj hnext (hq p (by simp)))
      (by
        have hb := @loopBody_qbound maxH st p rest hadj hnext hq
        have hn := loopBody_n maxH st p rest
        intro x hx
        rw [hn]
        exact hb x hx)
termination_by (measA st maxH, measS st q maxH, measPhi st, q.length, measN st)
decreasing_by
  have hp2 : p.2 < st.n := hq p (by simp)
  have hdec := loopBody_decreases maxH st p rest hadj hnext hp2
  rcases hdec with h | ⟨h1, hdec⟩
  · exact Prod.Lex.left _ _ h
  rw [h1]
  apply Prod.Lex.right
  rcases hdec with h | ⟨h2, hdec⟩
  · exact Prod.Lex.left _ _ h
  rw [h2]
  apply Prod.Lex.right
  rcases hdec with h | ⟨h3, hdec⟩
  · exact Prod.Lex.left _ _ h
  rw [h3]
  apply Prod.Lex.right
  rcases hdec with h | ⟨h4, h5⟩
  · exact Prod.Lex.left _ _ h
  rw [h4]
  exact Prod.Lex.right _ h5


/-- The initial queue of `UnitFlow::compute` (unit_flow.cpp lines 29-31):
every vertex with positive excess is enqueued under its current height. -/
def initialQueue (st : State) : List (ℕ × ℕ) :=
  (List.range st.n).foldl
    (fun q u => if 0 < excess st u then qinsert (st.height u, u) q else q) []

lemma initialQueue_bound (st : State) : ∀ x ∈ initialQueue st, x.2 < st.n := by
  unfold initialQueue
  suffices h : ∀ (l : List ℕ) (acc : List (ℕ × ℕ)),
      (∀ x ∈ acc, x.2 < st.n) → (∀ u ∈ l, u < st.n) →
      ∀ x ∈ l.foldl
        (fun q u => if 0 < excess st u then qinsert (st.height u, u) q else q) acc,
        x.2 < st.n by
    intro x hx
    exact h (List.range st.n) [] (by simp) (by simp) x hx
  intro l
  induction l with
  | nil =>
    intro acc hacc _ x hx
    exact hacc x hx
  | cons u rest ih =>
    intro acc hacc hl x hx
    simp only [List.foldl_cons] at hx
    apply ih _ _ (fun y hy => hl y (by simp [hy])) x hx
    intro y hy
    split at hy
    · rcases qinsert_mem hy with h1 | h1
      · rw [h1]
        exact hl u (by simp)
      · exact hacc y h1
    · exact hacc y hy

/-- `UnitFlow::compute` (unit_flow.cpp lines 23-79): cap the height at
`min(maxHeight, 2n+1)`, seed the queue with all positive-excess vertices, run
the push-relabel loop to completion, and return the final state together with
the list of vertices that still have positive excess. -/
def compute (st : State) (hadj : WfAdj st) (hnext : WfNext st)
    (maxHeight : ℕ) : State × List ℕ :=
  let maxH := min maxHeight (2 * st.n + 1)
  let final := pushRelabelLoop maxH st (initialQueue st) hadj hnext
    (initialQueue_bound st)
  (final, (List.range st.n).filter (fun u => 0 < excess final u))

lemma updateFlowAt_same_getD (g : ℕ → List Edge) (u i : ℕ) (d : ℤ)
    (hi : i < (g u).length) :
    (updateFlowAt g u i d u).getD i default
      = { (g u).getD i default with flow := ((g u).getD i default).flow + d } := by
  unfold updateFlowAt
  rw [Function.update_same, getD_set_edge]
  simp [hi]

lemma updateFlowAt_other (g : ℕ → List Edge) (u i : ℕ) (d : ℤ) {w : ℕ}
    (hw : w ≠ u) : updateFlowAt g u i d w = g w := by
  unfold updateFlowAt
  exact Function.update_noteq hw _ _

lemma pushState_absorbed_src (st : State) (u : ℕ)
    (hne : (curEdge st u).src ≠ (curEdge st u).dst) :
    (pushState st u).absorbed (curEdge st u).src
      = st.absorbed (curEdge st u).src - pushDelta st (curEdge st u) := by
  unfold pushState
  dsimp only
  rw [Function.update_noteq hne, Function.update_same]

lemma pushState_absorbed_dst (st : State) (u : ℕ)
    (hne : (curEdge st u).src ≠ (curEdge st u).dst) :
    (pushState st u).absorbed (curEdge st u).dst
      = st.absorbed (curEdge st u).dst + pushDelta st (curEdge st u) := by
  unfold pushState
  dsimp only
  rw [Function.update_same, Function.update_noteq (Ne.symm hne)]

lemma pushState_flow_edge (st : State) (u : ℕ)
    (hidx : st.nextEdgeIdx u < (st.graph u).length)
    (hpne : u ≠ (curEdge st u).dst) :
    (((pushState st u).graph u).getD (st.nextEdgeIdx u) default).flow
      = (curEdge st u).flow + pushDelta st (curEdge st u) := by
  unfold pushState
  dsimp only
  rw [updateFlowAt_other _ _ _ _ hpne, updateFlowAt_same_getD _ _ _ _ hidx]
  rfl

lemma pushState_flow_reverse (st : State) (u : ℕ)
    (hblt : (curEdge st u).backIdx < (st.graph (curEdge st u).dst).length)
    (hpne : u ≠ (curEdge st u).dst) :
    (((pushState st u).graph (curEdge st u).dst).getD (curEdge st u).backIdx
        default).flow
      = ((st.graph (curEdge st u).dst).getD (curEdge st u).backIdx default).flow
        - pushDelta st (curEdge st u) := by
  unfold pushState
  dsimp only
  have hg1 : updateFlowAt st.graph u (st.nextEdgeIdx u)
      (pushDelta st (curEdge st u)) (curEdge st u).dst
      = st.graph (curEdge st u).dst :=
    updateFlowAt_other _ _ _ _ (Ne.symm hpne)
  have hblt2 : (curEdge st u).backIdx
      < (updateFlowAt st.graph u (st.nextEdgeIdx u)
          (pushDelta st (curEdge st u)) (curEdge st u).dst).length := by
    rw [hg1]
    exact hblt
  rw [updateFlowAt_same_getD _ _ _ _ hblt2, hg1]
  dsimp only
  omega

/-- C5: the push-relabel loop of `compute(maxHeight)` runs with height cap
`maxH = min(maxHeight, 2n+1)` (first conjunct), and in any iteration whose
queue top is the vertex `p.2` with current edge `e`: if the push guard
`excess(e.from) > 0 ∧ residual(e) > 0 ∧ height(e.from) = height(e.to) + 1`
holds, the iteration is exactly a push of
`delta = min(excess(e.from), residual(e), degree(e.to))`: `delta` is added to
`e.flow`, subtracted from the reverse half-edge's flow, `absorbed(e.from)`
drops by `delta` and `absorbed(e.to)` grows by `delta` (second conjunct);
and if the guard fails, the iteration changes no flow and no absorbed value
(third conjunct) — i.e. a push happens only when the guard holds. -/
theorem push_iteration_semantics (st : State) (hadj : WfAdj st)
    (hnext : WfNext st) (maxHeight : ℕ) (p : ℕ × ℕ) (rest : List (ℕ × ℕ))
    (hu : p.2 < st.n) (hne : st.graph p.2 ≠ []) :
    (compute st hadj hnext maxHeight).1
      = pushRelabelLoop (min maxHeight (2 * st.n + 1)) st (initialQueue st)
          hadj hnext (initialQueue_bound st) ∧
    (pushCond st (curEdge st p.2) →
      loopBody (min maxHeight (2 * st.n + 1)) st p rest
        = (pushState st p.2,
           pushQueue (min maxHeight (2 * st.n + 1)) st p rest) ∧
      (((pushState st p.2).graph p.2).getD (st.nextEdgeIdx p.2) default).flow
        = (curEdge st p.2).flow
          + min (excess st (curEdge st p.2).src)
              (min (residual (curEdge st p.2))
                (degree st (curEdge st p.2).dst : ℤ)) ∧
      (((pushState st p.2).graph (curEdge st p.2).dst).getD
          (curEdge st p.2).backIdx default).flow
        = ((st.graph (curEdge st p.2).dst).getD (curEdge st p.2).backIdx
            default).flow
          - min (excess st (curEdge st p.2).src)
              (min (residual (curEdge st p.2))
                (degree st (curEdge st p.2).dst : ℤ)) ∧
      (pushState st p.2).absorbed (curEdge st p.2).src
        = st.absorbed (curEdge st p.2).src
          - min (excess st (curEdge st p.2).src)
              (min (residual (curEdge st p.2))
                (degree st (curEdge st p.2).dst : ℤ)) ∧
      (pushState st p.2).absorbed (curEdge st p.2).dst
        = st.absorbed (curEdge st p.2).dst
          + min (excess st (curEdge st p.2).src)
              (min (residual (curEdge st p.2))
                (degree st (curEdge st p.2).dst : ℤ))) ∧
    (¬ pushCond st (curEdge st p.2) →
      (loopBody (min maxHeight (2 * st.n + 1)) st p rest).1.graph = st.graph ∧
      (loopBody (min maxHeight (2 * st.n + 1)) st p rest).1.absorbed
        = st.absorbed) := by
  obtain ⟨hsrc, hvlt, hblt⟩ := curEdge_facts hadj hnext hu hne
  refine ⟨rfl, ?_, ?_⟩
  · intro hc
    have hneq : (curEdge st p.2).src ≠ (curEdge st p.2).dst := excess_pos_ne hc
    have hpne : p.2 ≠ (curEdge st p.2).dst := by
      intro h
      apply hneq
      rw [hsrc]
      exact h
    have hidx : st.nextEdgeIdx p.2 < (st.graph p.2).length := hnext p.2 hu hne
    have hbody : loopBody (min maxHeight (2 * st.n + 1)) st p rest
        = (pushState st p.2,
           pushQueue (min maxHeight (2 * st.n + 1)) st p rest) := by
      unfold loopBody
      rw [if_neg hne, if_pos hc]
    refine ⟨hbody, ?_, ?_, ?_, ?_⟩
    · rw [pushState_flow_edge st p.2 hidx hpne]
      rfl
    · rw [pushState_flow_reverse st p.2 hblt hpne]
      rfl
    · rw [pushState_absorbed_src st p.2 hneq]
      rfl
    · rw [pushState_absorbed_dst st p.2 hneq]
      rfl
  · intro hc
    unfold loopBody
    rw [if_neg hne, if_neg hc]
    split
    · exact ⟨rfl, rfl⟩
    · exact ⟨rfl, rfl⟩

/-- C6: `compute(maxHeight)` terminates on every well-formed unit-flow state
— `pushRelabelLoop` is a total function defined by well-founded recursion on
the lexicographic measure of `loopBody_decreases`, with no fuel, so the
priority-queue loop cannot run forever — and the returned list is exactly the
list of vertices whose excess is strictly positive at termination (in
increasing vertex order, as the C++ builds it).  A non-empty list is an
ordinary return value of the total function, not a failure. -/
theorem compute_returns_positive_excess (st : State) (hadj : WfAdj st)
    (hnext : WfNext st) (maxHeight : ℕ) :
    (compute st hadj hnext maxHeight).2
      = (List.range st.n).filter
          (fun u => 0 < excess (compute st hadj hnext maxHeight).1 u) := rfl

lemma resetDemo_wfAdj : WfAdj resetDemoState := by decide

lemma resetDemo_wfNext : WfNext resetDemoState := by decide

/-- Witness for `compute_returns_positive_excess` on the concrete two-vertex
state `resetDemoState`. -/
theorem compute_returns_positive_excess_witness :
    WfAdj resetDemoState ∧ WfNext resetDemoState ∧
    (compute resetDemoState resetDemo_wfAdj resetDemo_wfNext 10).2
      = (List.range resetDemoState.n).filter
          (fun u =>
            0 < excess (compute resetDemoState resetDemo_wfAdj resetDemo_wfNext 10).1 u) :=
  ⟨resetDemo_wfAdj, resetDemo_wfNext,
   compute_returns_positive_excess resetDemoState resetDemo_wfAdj resetDemo_wfNext 10⟩

/-- A two-vertex state poised to push: one unit of excess at vertex 0 at
height 1, an empty unit-capacity edge towards the sink vertex 1 at height
0. -/
def pushDemoState : State :=
  { n := 2
    graph := fun u =>
      if u = 0 then [⟨0, 1, 0, 0, 1⟩]
      else if u = 1 then [⟨1, 0, 0, 0, 1⟩]
      else []
    absorbed := fun u => if u = 0 then 1 else 0
    sink := fun u => if u = 1 then 1 else 0
    height := fun u => if u = 0 then 1 else 0
    nextEdgeIdx := fun _ => 0 }

lemma pushDemo_wfAdj : WfAdj pushDemoState := by decide

lemma pushDemo_wfNext : WfNext pushDemoState := by decide

/-- Witness for `push_iteration_semantics`: on `pushDemoState` with queue top
`(1, 0)`, the push guard holds and the theorem yields the exact `absorbed`
increment at the head of the pushed edge. -/
theorem push_iteration_semantics_witness :
    WfAdj pushDemoState ∧ WfNext pushDemoState ∧
    ((1, 0) : ℕ × ℕ).2 < pushDemoState.n ∧
    pushDemoState.graph ((1, 0) : ℕ × ℕ).2 ≠ [] ∧
    pushCond pushDemoState (curEdge pushDemoState ((1, 0) : ℕ × ℕ).2) ∧
    (pushState pushDemoState ((1, 0) : ℕ × ℕ).2).absorbed
        (curEdge pushDemoState ((1, 0) : ℕ × ℕ).2).dst
      = pushDemoState.absorbed (curEdge pushDemoState ((1, 0) : ℕ × ℕ).2).dst
        + min (excess pushDemoState (curEdge pushDemoState ((1, 0) : ℕ × ℕ).2).src)
            (min (residual (curEdge pushDemoState ((1, 0) : ℕ × ℕ).2))
              (degree pushDemoState
                (curEdge pushDemoState ((1, 0) : ℕ × ℕ).2).dst : ℤ)) :=
  ⟨pushDemo_wfAdj, pushDemo_wfNext, by decide, by decide, by decide,
   ((push_iteration_semantics pushDemoState pushDemo_wfAdj pushDemo_wfNext 10
       (1, 0) [] (by decide) (by decide)).2.1 (by decide)).2.2.2.2⟩


end UnitFlow

namespace CutMatching

/-- One pair of a matching round inside `Solver::projectFlow`
(cut_matching.cpp lines 65-70): `start[i] = 0.5 * (start[i] + start[j]);
start[j] = start[i];` — the second assignment reads the already-updated
`start[i]`. -/
def projectStep (x : ℕ → ℚ) (p : ℕ × ℕ) : ℕ → ℚ :=
  let a := (x p.1 + x p.2) / 2
  Function.update (Function.update x p.1 a) p.2 (Function.update x p.1 a p.1)

/-- `Solver::projectFlow` (cut_matching.cpp lines 62-72): apply every round's
pairs in order, in place. -/
def projectFlow (rounds : List (List (ℕ × ℕ))) (x : ℕ → ℚ) : ℕ → ℚ :=
  rounds.foldl (fun y round => round.foldl projectStep y) x

/-- Sum of the first `n` entries of a flow vector. -/
def vsum (n : ℕ) (x : ℕ → ℚ) : ℚ := ∑ u ∈ Finset.range n, x u

/-- The potential `Σ (x_u − mean)²` over the first `n` entries. -/
def potential (n : ℕ) (x : ℕ → ℚ) : ℚ :=
  ∑ u ∈ Finset.range n, (x u - vsum n x / n) ^ 2

lemma sum_two_update {n i j : ℕ} (hi : i < n) (hj : j < n) (hij : i ≠ j)
    (G : ℕ → ℚ → ℚ) (x : ℕ → ℚ) (a b : ℚ) :
    ∑ u ∈ Finset.range n, G u (Function.update (Function.update x i a) j b u)
      = (∑ u ∈ Finset.range n, G u (x u)) - G i (x i) - G j (x j)
        + G i a + G j b := by
  have hmj : j ∈ Finset.range n := Finset.mem_range.mpr hj
  have hmi : i ∈ (Finset.range n).erase j := by
    apply Finset.mem_erase.mpr
    exact ⟨hij, Finset.mem_range.mpr hi⟩
  have h1 : ∑ u ∈ Finset.range n, G u (Function.update (Function.update x i a) j b u)
      = G j b + ∑ u ∈ (Finset.range n).erase j,
          G u (Function.update (Function.update x i a) j b u) := by
    rw [← Finset.add_sum_erase _ _ hmj, Function.update_same]
  have h2 : ∑ u ∈ (Finset.range n).erase j,
        G u (Function.update (Function.update x i a) j b u)
      = ∑ u ∈ (Finset.range n).erase j, G u (Function.update x i a u) := by
    apply Finset.sum_congr rfl
    intro u hu
    rw [Function.update_noteq (Finset.ne_of_mem_erase hu)]
  have h3 : ∑ u ∈ (Finset.range n).erase j, G u (Function.update x i a u)
      = G i a + ∑ u ∈ ((Finset.range n).erase j).erase i,
          G u (Function.update x i a u) := by
    rw [← Finset.add_sum_erase _ _ hmi, Function.update_same]
  have h4 : ∑ u ∈ ((Finset.range n).erase j).erase i, G u (Function.update x i a u)
      = ∑ u ∈ ((Finset.range n).erase j).erase i, G u (x u) := by
    apply Finset.sum_congr rfl
    intro u hu
    rw [Function.update_noteq (Finset.ne_of_mem_erase hu)]
  have h5 : ∑ u ∈ Finset.range n, G u (x u)
      = G j (x j) + ∑ u ∈ (Finset.range n).erase j, G u (x u) :=
    (Finset.add_sum_erase _ _ hmj).symm
  have h6 : ∑ u ∈ (Finset.range n).erase j, G u (x u)
      = G i (x i) + ∑ u ∈ ((Finset.range n).erase j).erase i, G u (x u) :=
    (Finset.add_sum_erase _ _ hmi).symm
  rw [h1, h2, h3, h4, h5, h6]
  ring

lemma projectStep_eq_self {x : ℕ → ℚ} {p : ℕ × ℕ} (h : p.1 = p.2) :
    projectStep x p = x := by
  unfold projectStep
  dsimp only
  have ha : (x p.1 + x p.2) / 2 = x p.1 := by
    rw [← h]
    ring
  rw [ha, Function.update_same, ← h, Function.update_idem, Function.update_eq_self]

lemma projectStep_sum {n : ℕ} {p : ℕ × ℕ} (hi : p.1 < n) (hj : p.2 < n)
    (x : ℕ → ℚ) : vsum n (projectStep x p) = vsum n x := by
  by_cases hij : p.1 = p.2
  · rw [projectStep_eq_self hij]
  · unfold projectStep vsum
    dsimp only
    rw [Function.update_same]
    rw [sum_two_update hi hj hij (fun _ w => w) x _ _]
    ring

lemma projectStep_potential {n : ℕ} {p : ℕ × ℕ} (hi : p.1 < n) (hj : p.2 < n)
    (x : ℕ → ℚ) : potential n (projectStep x p) ≤ potential n x := by
  by_cases hij : p.1 = p.2
  · rw [projectStep_eq_self hij]
  · have hsum : vsum n (projectStep x p) = vsum n x := projectStep_sum hi hj x
    unfold potential
    rw [hsum]
    set m := vsum n x / (n : ℚ) with hmdef
    unfold projectStep
    rw [Function.update_same]
    rw [sum_two_update hi hj hij (fun _ w => (w - m) ^ 2) x _ _]
    have hkey : ((x p.1 + x p.2) / 2 - m) ^ 2 + ((x p.1 + x p.2) / 2 - m) ^ 2
        ≤ (x p.1 - m) ^ 2 + (x p.2 - m) ^ 2 := by
      nlinarith [sq_nonneg (x p.1 - x p.2)]
    linarith

lemma projectRound_inv {n : ℕ} (round : List (ℕ × ℕ))
    (hin : ∀ q ∈ round, q.1 < n ∧ q.2 < n) :
    ∀ x : ℕ → ℚ,
      vsum n (round.foldl projectStep x) = vsum n x ∧
      potential n (round.foldl projectStep x) ≤ potential n x := by
  induction round with
  | nil => intro x; exact ⟨rfl, le_refl _⟩
  | cons q rest ih =>
    intro x
    simp only [List.foldl_cons]
    obtain ⟨h1, h2⟩ := hin q (by simp)
    obtain ⟨ihs, ihp⟩ := ih (fun r hr => hin r (by simp [hr])) (projectStep x q)
    refine ⟨?_, ?_⟩
    · rw [ihs, projectStep_sum h1 h2]
    · exact le_trans ihp (projectStep_potential h1 h2 x)

/-- C8: for every sequence of matching rounds whose pairs use valid vertex
indices and never repeat a vertex within a round, and every starting vector,
`projectFlow` preserves the sum of the entries and never increases the
potential `Σ (x_u − mean)²`. -/
theorem projectFlow_sum_and_potential (n : ℕ)
    (rounds : List (List (ℕ × ℕ))) (x : ℕ → ℚ)
    (hin : ∀ r ∈ rounds, ∀ q ∈ r, q.1 < n ∧ q.2 < n)
    (hnd : ∀ r ∈ rounds, (r.flatMap (fun q => [q.1, q.2])).Nodup) :
    vsum n (projectFlow rounds x) = vsum n x ∧
    potential n (projectFlow rounds x) ≤ potential n x := by
  unfold projectFlow
  induction rounds generalizing x with
  | nil => exact ⟨rfl, le_refl _⟩
  | cons r rest ih =>
    simp only [List.foldl_cons]
    obtain ⟨hs1, hp1⟩ := projectRound_inv r (hin r (by simp)) x
    obtain ⟨hs2, hp2⟩ := ih (r.foldl projectStep x)
      (fun r2 hr2 => hin r2 (by simp [hr2]))
      (fun r2 hr2 => hnd r2 (by simp [hr2]))
    exact ⟨hs2.trans hs1, le_trans hp2 hp1⟩

/-- Witness for `projectFlow_sum_and_potential`: the single round `[(0, 3)]`
of spec scenario S2 on a vector of length 4. -/
theorem projectFlow_sum_and_potential_witness :
    (∀ r ∈ [[((0 : ℕ), (3 : ℕ))]], ∀ q ∈ r, q.1 < 4 ∧ q.2 < 4) ∧
    (∀ r ∈ [[((0 : ℕ), (3 : ℕ))]], (r.flatMap (fun q => [q.1, q.2])).Nodup) ∧
    (vsum 4 (projectFlow [[(0, 3)]] (fun u => if u = 2 then 1/2 else 1/4))
        = vsum 4 (fun u => if u = 2 then 1/2 else 1/4) ∧
     potential 4 (projectFlow [[(0, 3)]] (fun u => if u = 2 then 1/2 else 1/4))
        ≤ potential 4 (fun u => if u = 2 then 1/2 else 1/4)) :=
  ⟨by decide, by decide,
   projectFlow_sum_and_potential 4 [[(0, 3)]] _ (by decide) (by decide)⟩

/-- `Result::Type` (cut_matching.hpp line 58). -/
inductive ResultType
  | Balanced
  | Expander
  | NearExpander
deriving DecidableEq, Repr

/-- The classification outcome of the end of `Solver::compute`: the result
type, plus whether `restoreRemoves` was invoked on the flow graph. -/
structure ClassifyOutcome where
  rtype : ResultType
  restoredRemoves : Bool
deriving DecidableEq, Repr

/-- The classification of cut_matching.cpp lines 376-387, as a function of
the quantities it reads: `aliveSize = graph->size()`,
`removedSize = graph->removedSize()`, `removedVolume` = the volume of the
removed subdivision vertices, and `lowerVolumeBalance = numSplitNodes/10/T`
(integer division, line 230). -/
def classifyResult (aliveSize removedSize removedVolume numSplitNodes T : ℕ) :
    ClassifyOutcome :=
  if aliveSize ≠ 0 ∧ removedSize ≠ 0 ∧ removedVolume > numSplitNodes / 10 / T
    then ⟨ResultType.Balanced, false⟩
  else if removedSize = 0 then ⟨ResultType.Expander, false⟩
  else if aliveSize = 0 then ⟨ResultType.Expander, true⟩
  else ⟨ResultType.NearExpander, false⟩

/-- Modelled from the spec: the classification table of §4.C "Classification
after the last round", with `vol_R > m/(10T)` read as an exact rational
comparison (`S` alive outer vertices, `R` removed outer vertices, `vol_R`
removed subdivision volume, `m` split vertices, `T` rounds). -/
def specClassify (S R volR m T : ℕ) : ClassifyOutcome :=
  if 0 < S ∧ 0 < R ∧ (volR : ℚ) > (m : ℚ) / (10 * T)
    then ⟨ResultType.Balanced, false⟩
  else if R = 0 then ⟨ResultType.Expander, false⟩
  else if S = 0 then ⟨ResultType.Expander, true⟩
  else ⟨ResultType.NearExpander, false⟩

/-- C1: the classification at the end of `Solver::compute` agrees with the
spec's table for every value of S, R, vol_R, m and T ≥ 1: Balanced (no
restore) when `S > 0 ∧ R > 0 ∧ vol_R > m/(10T)`; else Expander when `R = 0`;
else, when `S = 0`, all removes are undone and the result is Expander;
otherwise NearExpander.  The code's integer `numSplitNodes/10/T` threshold is
exactly the spec's exact comparison because vol_R is an integer. -/
theorem classify_matches_spec (S R volR m T : ℕ) (hT : 0 < T) :
    classifyResult S R volR m T = specClassify S R volR m T := by
  have h10T : 0 < 10 * T := by omega
  have hiff : (m / 10 / T < volR) ↔ ((m : ℚ) / (10 * T) < (volR : ℚ)) := by
    rw [Nat.div_div_eq_div_mul]
    rw [Nat.div_lt_iff_lt_mul h10T]
    rw [div_lt_iff₀ (by positivity : (0 : ℚ) < 10 * T)]
    constructor
    · intro h
      exact_mod_cast h
    · intro h
      exact_mod_cast h
  have hcond : (S ≠ 0 ∧ R ≠ 0 ∧ volR > m / 10 / T)
      ↔ (0 < S ∧ 0 < R ∧ (volR : ℚ) > (m : ℚ) / (10 * T)) := by
    constructor
    · rintro ⟨a, b, c⟩
      exact ⟨by omega, by omega, hiff.mp c⟩
    · rintro ⟨a, b, c⟩
      exact ⟨by omega, by omega, hiff.mpr c⟩
  unfold classifyResult specClassify
  by_cases h1 : S ≠ 0 ∧ R ≠ 0 ∧ volR > m / 10 / T
  · rw [if_pos h1, if_pos (hcond.mp h1)]
  · rw [if_neg h1, if_neg (fun h => h1 (hcond.mpr h))]

/-- Witness for `classify_matches_spec` at T = 1 on a balanced instance. -/
theorem classify_matches_spec_witness :
    0 < 1 ∧ classifyResult 2 3 4 5 1 = specClassify 2 3 4 5 1 :=
  ⟨by decide, classify_matches_spec 2 3 4 5 1 (by decide)⟩

/-- The iteration structure of `Solver::compute`'s main loop
(cut_matching.cpp lines 240-244): starting from iteration count `i`, run the
abstract round body `step` while `iterations < T` and the removed
subdivision volume is at most `target`; return the final count and state.
The round body is abstract because the claim is about the loop control. -/
def gameLoop {σ : Type} (step : σ → σ) (removedVolume : σ → ℤ)
    (target : ℤ) (T : ℕ) : ℕ → σ → ℕ × σ
  | i, s =>
    if i < T ∧ removedVolume s ≤ target then
      gameLoop step removedVolume target T (i + 1) (step s)
    else (i, s)
termination_by i _ => T - i
decreasing_by
  next h =>
  omega

/-- `targetVolumeBalance` (cut_matching.cpp lines 230-232):
`max(numSplitNodes/10/T, int(minBalance * globalVolume))`; the `int` cast
truncates toward zero, which is the floor since `minBalance ≥ 0`. -/
def targetVolumeBalance (numSplitNodes T globalVolume : ℕ) (minBalance : ℚ) : ℤ :=
  max ((numSplitNodes / 10 / T : ℕ) : ℤ) ⌊minBalance * (globalVolume : ℚ)⌋

lemma gameLoop_le {σ : Type} (step : σ → σ) (removedVolume : σ → ℤ)
    (target : ℤ) (T : ℕ) :
    ∀ k i (s : σ), T - i ≤ k → i ≤ T →
      (gameLoop step removedVolume target T i s).1 ≤ T := by
  intro k
  induction k with
  | zero =>
    intro i s hk hi
    rw [gameLoop]
    have : ¬ (i < T ∧ removedVolume s ≤ target) := by omega
    rw [if_neg this]
    exact hi
  | succ k ih =>
    intro i s hk hi
    rw [gameLoop]
    split
    · next h =>
      exact ih (i + 1) (step s) (by omega) (by omega)
    · exact hi

/-- C7: the cut-matching game loop with `targetBalance =
max(m/(10T), minBalance·globalVolume)` never reports more than `T`
iterations (first conjunct), and no new round is started from a state whose
removed subdivision volume exceeds `targetBalance`: the loop returns
immediately (second conjunct). -/
theorem game_self_terminates {σ : Type} (step : σ → σ)
    (removedVolume : σ → ℤ) (numSplitNodes T globalVolume : ℕ)
    (minBalance : ℚ) (s0 : σ) :
    (gameLoop step removedVolume
        (targetVolumeBalance numSplitNodes T globalVolume minBalance) T 0 s0).1
      ≤ T ∧
    (∀ (i : ℕ) (s : σ),
      targetVolumeBalance numSplitNodes T globalVolume minBalance
          < removedVolume s →
      gameLoop step removedVolume
        (targetVolumeBalance numSplitNodes T globalVolume minBalance) T i s
        = (i, s)) := by
  constructor
  · exact gameLoop_le _ _ _ T T 0 s0 (by omega) (by omega)
  · intro i s hvol
    rw [gameLoop]
    have : ¬ (i < T ∧ removedVolume s
        ≤ targetVolumeBalance numSplitNodes T globalVolume minBalance) := by
      omega
    rw [if_neg this]

/-- Witness for `game_self_terminates`: with removed volume constantly 5 and
target 0 (all parameters zero, T = 1), the loop returns immediately. -/
theorem game_self_terminates_witness :
    targetVolumeBalance 0 1 0 0 < (fun _ : ℕ => (5 : ℤ)) 0 ∧
    gameLoop id (fun _ : ℕ => (5 : ℤ)) (targetVolumeBalance 0 1 0 0) 1 0 0
      = (0, 0) ∧
    (gameLoop id (fun _ : ℕ => (5 : ℤ)) (targetVolumeBalance 0 1 0 0) 1 0 0).1
      ≤ 1 :=
  have h5 : targetVolumeBalance 0 1 0 0 < (fun _ : ℕ => (5 : ℤ)) 0 := by
    unfold targetVolumeBalance
    simp
  ⟨h5,
   (game_self_terminates id (fun _ : ℕ => (5 : ℤ)) 0 1 0 0 0).2 0 0 h5,
   (game_self_terminates id (fun _ : ℕ => (5 : ℤ)) 0 1 0 0 0).1⟩

/-- `Result` (cut_matching.hpp lines 57-93), restricted to the fields the
default constructor sets. -/
structure Result where
  rtype : ResultType
  iterations : ℕ
  congestion : ℤ
deriving DecidableEq, Repr

/-- `Result::Result()` (cut_matching.cpp line 13): an Expander with 0
iterations and congestion 1. -/
def defaultResult : Result := ⟨ResultType.Expander, 0, 1⟩

/-- The guard of `Solver::compute` (cut_matching.cpp lines 223-228),
parameterized over the rest of the computation `runGame`: the solver state is
the pair (outer flow graph, subdivision flow graph) and
`numSplitNodes = subdivGraph->size() - graph->size()` (line 24).  When
`numSplitNodes <= 1` the function returns `Result{}` before touching
anything. -/
def cmCompute
    (runGame : UnitFlow.State × UnitFlow.State
      → Result × (UnitFlow.State × UnitFlow.State))
    (gs : UnitFlow.State × UnitFlow.State) :
    Result × (UnitFlow.State × UnitFlow.State) :=
  if gs.2.n - gs.1.n ≤ 1 then (defaultResult, gs) else runGame gs

/-- C10: when the subdivision graph has at most one split vertex, the
cut-matching solver returns immediately with the default result — type
Expander, 0 iterations, congestion 1 — running no rounds and leaving both
the outer flow graph and the subdivision flow graph unchanged, whatever the
rest of the computation would have done. -/
theorem compute_early_return
    (runGame : UnitFlow.State × UnitFlow.State
      → Result × (UnitFlow.State × UnitFlow.State))
    (gs : UnitFlow.State × UnitFlow.State)
    (h : gs.2.n - gs.1.n ≤ 1) :
    cmCompute runGame gs = (defaultResult, gs) ∧
    (cmCompute runGame gs).1.rtype = ResultType.Expander ∧
    (cmCompute runGame gs).1.iterations = 0 ∧
    (cmCompute runGame gs).1.congestion = 1 ∧
    (cmCompute runGame gs).2.1 = gs.1 ∧
    (cmCompute runGame gs).2.2 = gs.2 := by
  unfold cmCompute
  rw [if_pos h]
  exact ⟨rfl, rfl, rfl, rfl, rfl, rfl⟩

/-- Witness for `compute_early_return`: both graphs are the two-vertex
`UnitFlow.resetDemoState`, so there are 0 split vertices. -/
theorem compute_early_return_witness :
    ((UnitFlow.resetDemoState, UnitFlow.resetDemoState) :
        UnitFlow.State × UnitFlow.State).2.n
        - (UnitFlow.resetDemoState, UnitFlow.resetDemoState).1.n ≤ 1 ∧
    cmCompute (fun gs => (defaultResult, gs))
        (UnitFlow.resetDemoState, UnitFlow.resetDemoState)
      = (defaultResult, (UnitFlow.resetDemoState, UnitFlow.resetDemoState)) :=
  ⟨by decide,
   (compute_early_return (fun gs => (defaultResult, gs))
     (UnitFlow.resetDemoState, UnitFlow.resetDemoState) (by decide)).1⟩

/-- Insertion into a flow-sorted list of (vertex, flow) pairs. -/
def insertByFlow (q : ℕ × ℚ) : List (ℕ × ℚ) → List (ℕ × ℚ)
  | [] => [q]
  | r :: rest => if q.2 ≤ r.2 then q :: r :: rest else r :: insertByFlow q rest

/-- Sorting by ascending flow value, standing in for `std::sort` with the
comparator `cmpFlow` of cut_matching.cpp lines 162-166 (ties are broken by
position, which no claim depends on). -/
def sortByFlow : List (ℕ × ℚ) → List (ℕ × ℚ)
  | [] => []
  | q :: rest => insertByFlow q (sortByFlow rest)

lemma insertByFlow_length (q : ℕ × ℚ) (l : List (ℕ × ℚ)) :
    (insertByFlow q l).length = l.length + 1 := by
  induction l with
  | nil => rfl
  | cons r rest ih =>
    rw [insertByFlow]
    split
    · rfl
    · simpa using ih

lemma sortByFlow_length (l : List (ℕ × ℚ)) :
    (sortByFlow l).length = l.length := by
  induction l with
  | nil => rfl
  | cons q rest ih =>
    rw [sortByFlow, insertByFlow_length, ih]
    rfl

lemma insertByFlow_perm (q : ℕ × ℚ) (l : List (ℕ × ℚ)) :
    (insertByFlow q l).Perm (q :: l) := by
  induction l with
  | nil => exact List.Perm.refl _
  | cons r rest ih =>
    rw [insertByFlow]
    split
    · exact List.Perm.refl _
    · exact (ih.cons r).trans (List.Perm.swap q r rest)

lemma sortByFlow_perm (l : List (ℕ × ℚ)) : (sortByFlow l).Perm l := by
  induction l with
  | nil => exact List.Perm.refl _
  | cons q rest ih =>
    rw [sortByFlow]
    exact (insertByFlow_perm q (sortByFlow rest)).trans (ih.cons q)

/-- The balancing loop of the empty-left case (cut_matching.cpp lines
170-172): while the left side is smaller, move the back of the right side
over. -/
def balanceLoop (L R : List (ℕ × ℚ)) : List (ℕ × ℚ) × List (ℕ × ℚ) :=
  if L.length < R.length then
    balanceLoop (L ++ [R.getLastD (0, 0)]) R.dropLast
  else (L, R)
termination_by R.length
decreasing_by
  next h =>
  rw [List.length_dropLast]
  omega

lemma balanceLoop_spec :
    ∀ (k : ℕ) (R L : List (ℕ × ℚ)), R.length ≤ k →
    (balanceLoop L R).1.length + (balanceLoop L R).2.length
        = L.length + R.length ∧
    ¬ ((balanceLoop L R).1.length < (balanceLoop L R).2.length) := by
  intro k
  induction k with
  | zero =>
    intro R L hk
    rw [balanceLoop]
    have hnot : ¬ (L.length < R.length) := by omega
    rw [if_neg hnot]
    exact ⟨rfl, hnot⟩
  | succ k ih =>
    intro R L hk
    rw [balanceLoop]
    split
    · next h =>
      have hR : R.length ≠ 0 := by omega
      obtain ⟨h1, h2⟩ := ih R.dropLast (L ++ [R.getLastD (0, 0)])
        (by rw [List.length_dropLast]; omega)
      constructor
      · rw [h1]
        simp only [List.length_append, List.length_dropLast, List.length_cons,
          List.length_nil]
        omega
      · exact h2
    · next h =>
      exact ⟨rfl, h⟩

/-- The non-balanced shrinking loop (cut_matching.cpp lines 214-215): pop the
left side while more than an eighth of the subdivision vertices. -/
def shrinkLoop (cnt : ℕ) (L : List (ℕ × ℚ)) : List (ℕ × ℚ) :=
  if 8 * L.length > cnt then shrinkLoop cnt L.dropLast else L
termination_by L.length
decreasing_by
  next h =>
  rw [List.length_dropLast]
  omega

lemma shrinkLoop_le_aux (cnt : ℕ) :
    ∀ (k : ℕ) (L : List (ℕ × ℚ)), L.length ≤ k →
    8 * (shrinkLoop cnt L).length ≤ cnt := by
  intro k
  induction k with
  | zero =>
    intro L hk
    rw [shrinkLoop]
    have hnot : ¬ (8 * L.length > cnt) := by omega
    rw [if_neg hnot]
    omega
  | succ k ih =>
    intro L hk
    rw [shrinkLoop]
    split
    · next h =>
      exact ih L.dropLast (by rw [List.length_dropLast]; omega)
    · next h =>
      omega

lemma shrinkLoop_le (cnt : ℕ) (L : List (ℕ × ℚ)) :
    8 * (shrinkLoop cnt L).length ≤ cnt :=
  shrinkLoop_le_aux cnt L.length L (le_refl _)

/-- The balanced-strategy equalizer (cut_matching.cpp lines 205-206): pop the
right side while it is nonempty and longer than the left side. -/
def popEqualize (L R : List (ℕ × ℚ)) : List (ℕ × ℚ) :=
  if R ≠ [] ∧ R.length > L.length then popEqualize L R.dropLast else R
termination_by R.length
decreasing_by
  next h =>
  rw [List.length_dropLast]
  have : R.length ≠ 0 := fun hc => h.1 (List.length_eq_zero.mp hc)
  omega

/-- The average flow `avgFlow` over the alive subdivision vertices
(cut_matching.cpp lines 125-131): the input `xs` is the list of alive
subdivision vertices paired with their flow values, in iteration order, and
`curSubdivisionCount = subdivGraph->size() - graph->size()` is its length
(outer and subdivision removals are kept in sync by the round loop). -/
def cutAvg (xs : List (ℕ × ℚ)) : ℚ :=
  (xs.map (fun q => q.2)).sum / (xs.length : ℚ)

/-- The initial left set `{u : flow[u] < avgFlow}` (lines 134-143). -/
def cutLeft0 (xs : List (ℕ × ℚ)) : List (ℕ × ℚ) :=
  xs.filter (fun q => decide (q.2 < cutAvg xs))

/-- The initial right set `{u : flow[u] >= avgFlow}` (lines 134-143). -/
def cutRight0 (xs : List (ℕ × ℚ)) : List (ℕ × ℚ) :=
  xs.filter (fun q => decide (¬ (q.2 < cutAvg xs)))

/-- `leftLarger = axLeft.size() > axRight.size()` (line 144). -/
def cutLeftLarger (xs : List (ℕ × ℚ)) : Bool :=
  decide ((cutRight0 xs).length < (cutLeft0 xs).length)

/-- The left set after the swap of line 145-146. -/
def cutLeft1 (xs : List (ℕ × ℚ)) : List (ℕ × ℚ) :=
  if cutLeftLarger xs then cutRight0 xs else cutLeft0 xs

/-- The right set after the swap of line 145-146. -/
def cutRight1 (xs : List (ℕ × ℚ)) : List (ℕ × ℚ) :=
  if cutLeftLarger xs then cutLeft0 xs else cutRight0 xs

/-- `totalPotential = Σ (flow[u] − avgFlow)²` (lines 149-154). -/
def totalPotential (xs : List (ℕ × ℚ)) : ℚ :=
  (xs.map (fun q => (q.2 - cutAvg xs) ^ 2)).sum

/-- `leftPotential = Σ_{u ∈ axLeft} (flow[u] − avgFlow)²` (lines 155-159). -/
def leftPotential (xs : List (ℕ × ℚ)) : ℚ :=
  ((cutLeft1 xs).map (fun q => (q.2 - cutAvg xs) ^ 2)).sum

/-- `l = Σ_{u ∈ axLeft} |flow[u] − avgFlow|` (lines 181-186), computed over
the sorted left set as the C++ does. -/
def cutL (xs : List (ℕ × ℚ)) : ℚ :=
  ((sortByFlow (cutLeft1 xs)).map (fun q => |q.2 - cutAvg xs|)).sum

/-- `mu = avgFlow + 4l/curSubdivisionCount` (line 187). -/
def cutMu (xs : List (ℕ × ℚ)) : ℚ :=
  cutAvg xs + 4 * cutL xs / (xs.length : ℚ)

/-- The three-way case split of `Solver::proposeCut` after sorting (lines
168-201): Case A — the left side is empty, split the right side in half
(lines 170-174); Case B — `leftPotential > totalPotential/20`, keep both
sides, reversing `axRight` when the original left side was not larger (lines
175-179); Case C — re-partition along `mu`: `axRight = {flow < mu}`
reversed, `axLeft = {flow >= avgFlow + 6l/m}` among the rest (lines
180-201). -/
def cutCore (xs : List (ℕ × ℚ)) : List (ℕ × ℚ) × List (ℕ × ℚ) :=
  if sortByFlow (cutLeft1 xs) = [] then
    let ba := balanceLoop (sortByFlow (cutLeft1 xs)) (sortByFlow (cutRight1 xs))
    if ba.2.length < ba.1.length then (ba.2, ba.1) else ba
  else if totalPotential xs / 20 < leftPotential xs then
    (sortByFlow (cutLeft1 xs),
     if cutLeftLarger xs then sortByFlow (cutRight1 xs)
     else (sortByFlow (cutRight1 xs)).reverse)
  else
    (xs.filter (fun q => decide (¬ (q.2 < cutMu xs) ∧
       cutAvg xs + 6 * cutL xs / (xs.length : ℚ) ≤ q.2)),
     (xs.filter (fun q => decide (q.2 < cutMu xs))).reverse)

/-- `Solver::proposeCut` (cut_matching.cpp lines 121-221): the case split of
`cutCore` followed by the balancing step of lines 204-218 — under the
balanced strategy pop `axRight` down to `axLeft`'s size; otherwise reverse
`axLeft` when the original left side was larger and pop it while
`8·|axLeft| > curSubdivisionCount`.  `double` arithmetic is modelled exactly
over `ℚ`. -/
def proposeCut (balancedCutStrategy : Bool) (xs : List (ℕ × ℚ)) :
    List (ℕ × ℚ) × List (ℕ × ℚ) :=
  if balancedCutStrategy then
    ((cutCore xs).1, popEqualize (cutCore xs).1 (cutCore xs).2)
  else
    (shrinkLoop xs.length
      (if cutLeftLarger xs then (cutCore xs).1.reverse else (cutCore xs).1),
     (cutCore xs).2)

lemma length_filter_partition (f : ℕ × ℚ → Bool) (xs : List (ℕ × ℚ)) :
    (xs.filter f).length + (xs.filter (fun q => !(f q))).length = xs.length := by
  induction xs with
  | nil => rfl
  | cons q rest ih =>
    cases hf : f q
    · simp only [List.filter_cons, hf, Bool.not_false, if_true, if_false,
        Bool.false_eq_true, List.length_cons]
      omega
    · simp only [List.filter_cons, hf, Bool.not_true, if_true, if_false,
        Bool.false_eq_true, List.length_cons]
      omega

lemma sum_filter_partition (f : ℕ × ℚ → Bool) (g : ℕ × ℚ → ℚ)
    (xs : List (ℕ × ℚ)) :
    ((xs.filter f).map g).sum + ((xs.filter (fun q => !(f q))).map g).sum
      = (xs.map g).sum := by
  induction xs with
  | nil => simp
  | cons q rest ih =>
    cases hf : f q
    · simp only [List.filter_cons, hf, Bool.not_false, if_true, if_false,
        Bool.false_eq_true, List.map_cons, List.sum_cons]
      linarith
    · simp only [List.filter_cons, hf, Bool.not_true, if_true, if_false,
        Bool.false_eq_true, List.map_cons, List.sum_cons]
      linarith

lemma length_filter_mono (f r : ℕ × ℚ → Bool) (xs : List (ℕ × ℚ))
    (h : ∀ q ∈ xs, f q = true → r q = true) :
    (xs.filter f).length ≤ (xs.filter r).length := by
  induction xs with
  | nil => exact le_refl _
  | cons q rest ih =>
    have ih2 := ih (fun y hy => h y (by simp [hy]))
    cases hf : f q
    · cases hr : r q
      · simp only [List.filter_cons, hf, hr, Bool.false_eq_true, if_false]
        exact ih2
      · simp only [List.filter_cons, hf, hr, Bool.false_eq_true, if_true,
          if_false, List.length_cons]
        omega
    · have hr : r q = true := h q (by simp) hf
      simp only [List.filter_cons, hf, hr, if_true, List.length_cons]
      omega

lemma sum_filter_mono (f r : ℕ × ℚ → Bool) (g : ℕ × ℚ → ℚ)
    (xs : List (ℕ × ℚ))
    (himp : ∀ q ∈ xs, f q = true → r q = true)
    (hpos : ∀ q ∈ xs, r q = true → 0 ≤ g q) :
    ((xs.filter f).map g).sum ≤ ((xs.filter r).map g).sum := by
  induction xs with
  | nil => exact le_refl _
  | cons q rest ih =>
    have ih2 := ih (fun y hy => himp y (by simp [hy]))
      (fun y hy => hpos y (by simp [hy]))
    cases hf : f q
    · cases hr : r q
      · simp only [List.filter_cons, hf, hr, Bool.false_eq_true, if_false]
        exact ih2
      · have hg : 0 ≤ g q := hpos q (by simp) hr
        simp only [List.filter_cons, hf, hr, Bool.false_eq_true, if_true,
          if_false, List.map_cons, List.sum_cons]
        linarith
    · have hr : r q = true := himp q (by simp) hf
      simp only [List.filter_cons, hf, hr, if_true, List.map_cons, List.sum_cons]
      linarith

lemma mul_le_sum_of_forall_le (g : ℕ × ℚ → ℚ) (b : ℚ) (xs : List (ℕ × ℚ))
    (h : ∀ q ∈ xs, b ≤ g q) :
    (xs.length : ℚ) * b ≤ (xs.map g).sum := by
  induction xs with
  | nil => simp
  | cons q rest ih =>
    have h1 : b ≤ g q := h q (by simp)
    have h2 := ih (fun y hy => h y (by simp [hy]))
    simp only [List.map_cons, List.sum_cons, List.length_cons]
    push_cast
    linarith

lemma sum_pos_of_mem_pos (g : ℕ × ℚ → ℚ) (xs : List (ℕ × ℚ))
    (hne : xs ≠ []) (h : ∀ q ∈ xs, 0 < g q) : 0 < (xs.map g).sum := by
  induction xs with
  | nil => exact absurd rfl hne
  | cons q rest ih =>
    simp only [List.map_cons, List.sum_cons]
    rcases List.eq_nil_or_concat rest with hr | _
    case inl =>
      rw [hr]
      simpa using h q (by simp)
    case inr =>
      by_cases hr0 : rest = []
      · rw [hr0]
        simpa using h q (by simp)
      · have h1 : 0 < g q := h q (by simp)
        have h2 := ih hr0 (fun y hy => h y (by simp [hy]))
        linarith

lemma sum_map_sub_const (g : ℕ × ℚ → ℚ) (c : ℚ) (xs : List (ℕ × ℚ)) :
    (xs.map (fun q => g q - c)).sum = (xs.map g).sum - (xs.length : ℚ) * c := by
  induction xs with
  | nil => simp
  | cons q rest ih =>
    simp only [List.map_cons, List.sum_cons, List.length_cons]
    push_cast
    linarith

lemma sum_sub_avg_eq_zero (xs : List (ℕ × ℚ)) (hne : xs ≠ []) :
    (xs.map (fun q => q.2 - cutAvg xs)).sum = 0 := by
  rw [sum_map_sub_const]
  unfold cutAvg
  have hlen : (xs.length : ℚ) ≠ 0 := by
    have : xs.length ≠ 0 := fun hc => hne (List.length_eq_zero.mp hc)
    exact_mod_cast this
  field_simp


lemma sum_map_neg (g : ℕ × ℚ → ℚ) (xs : List (ℕ × ℚ)) :
    (xs.map (fun q => -(g q))).sum = -((xs.map g).sum) := by
  induction xs with
  | nil => simp
  | cons q rest ih =>
    simp only [List.map_cons, List.sum_cons, ih]
    ring

lemma sortByFlow_map_sum (g : ℕ × ℚ → ℚ) (L : List (ℕ × ℚ)) :
    ((sortByFlow L).map g).sum = (L.map g).sum :=
  ((sortByFlow_perm L).map g).sum_eq

lemma cutRight0_bang (xs : List (ℕ × ℚ)) :
    cutRight0 xs = xs.filter (fun q => !(decide (q.2 < cutAvg xs))) := by
  unfold cutRight0
  apply List.filter_congr
  intro q _
  exact decide_not

lemma cutHalves_length (xs : List (ℕ × ℚ)) :
    (cutLeft1 xs).length + (cutRight1 xs).length = xs.length ∧
    (cutLeft1 xs).length ≤ (cutRight1 xs).length := by
  have hpart : (cutLeft0 xs).length + (cutRight0 xs).length = xs.length := by
    rw [cutRight0_bang]
    unfold cutLeft0
    exact length_filter_partition _ xs
  unfold cutLeft1 cutRight1 cutLeftLarger
  by_cases h : (cutRight0 xs).length < (cutLeft0 xs).length
  · rw [if_pos (by simpa using h), if_pos (by simpa using h)]
    omega
  · rw [if_neg (by simpa using h), if_neg (by simpa using h)]
    omega

lemma cutL_nonneg (xs : List (ℕ × ℚ)) : 0 ≤ cutL xs := by
  unfold cutL
  apply List.sum_nonneg
  intro x hx
  obtain ⟨q, _, hq⟩ := List.mem_map.mp hx
  rw [← hq]
  exact abs_nonneg _

/-- The central counting fact behind the non-balanced strategy: whatever
case `cutCore` lands in, the returned right side holds at least an eighth of
the alive subdivision vertices. -/
lemma cutCore_right_large (xs : List (ℕ × ℚ)) :
    xs.length ≤ 8 * (cutCore xs).2.length := by
  obtain ⟨hsum1, hle1⟩ := cutHalves_length xs
  unfold cutCore
  split
  · -- Case A: the left side is empty, the right side is split in half
    next hempty =>
    have hslen : (sortByFlow (cutLeft1 xs)).length = (cutLeft1 xs).length :=
      sortByFlow_length _
    have hsrlen : (sortByFlow (cutRight1 xs)).length = (cutRight1 xs).length :=
      sortByFlow_length _
    obtain ⟨hbsum, hbnot⟩ := balanceLoop_spec
      (sortByFlow (cutRight1 xs)).length (sortByFlow (cutRight1 xs))
      (sortByFlow (cutLeft1 xs)) (le_refl _)
    dsimp only
    split
    · next hswap =>
      dsimp only
      omega
    · next hnoswap =>
      omega
  next hne =>
  split
  · -- Case B: both sides kept, the right side is the larger-by-count side
    next hpot =>
    have hsrlen : (sortByFlow (cutRight1 xs)).length = (cutRight1 xs).length :=
      sortByFlow_length _
    dsimp only
    split
    · omega
    · rw [List.length_reverse]
      omega
  · -- Case C: re-partition along mu
    next hpot =>
    have hL1ne : cutLeft1 xs ≠ [] := by
      intro hcon
      apply hne
      rw [hcon]
      rfl
    have hxne : xs ≠ [] := by
      intro hcon
      apply hL1ne
      unfold cutLeft1 cutLeft0 cutRight0
      rw [hcon]
      simp
    have hcnt : 0 < xs.length := List.length_pos.mpr hxne
    have hcntQ : (0 : ℚ) < (xs.length : ℚ) := by exact_mod_cast hcnt
    have hmu_ge : cutAvg xs ≤ cutMu xs := by
      unfold cutMu
      have h1 : 0 ≤ 4 * cutL xs / (xs.length : ℚ) := by
        apply div_nonneg
        · linarith [cutL_nonneg xs]
        · linarith
      linarith
    rw [List.length_reverse]
    have hpartmu : (xs.filter (fun q => decide (q.2 < cutMu xs))).length
        + (xs.filter (fun q => !(decide (q.2 < cutMu xs)))).length
        = xs.length := length_filter_partition _ xs
    by_cases hLL : cutLeftLarger xs = true
    · -- the original left (below-average) side was larger
      have hL1 : cutLeft1 xs = cutRight0 xs := by
        unfold cutLeft1
        rw [hLL]
        rfl
      have hLLlt : (cutRight0 xs).length < (cutLeft0 xs).length := by
        have := hLL
        unfold cutLeftLarger at this
        simpa using this
      have hmono : (cutLeft0 xs).length
          ≤ (xs.filter (fun q => decide (q.2 < cutMu xs))).length := by
        unfold cutLeft0
        apply length_filter_mono
        intro q _ hq
        simp only [decide_eq_true_eq] at hq ⊢
        linarith
      have hpart0 : (cutLeft0 xs).length + (cutRight0 xs).length = xs.length := by
        rw [cutRight0_bang]
        unfold cutLeft0
        exact length_filter_partition _ xs
      omega
    · -- the mass argument: few vertices can sit above mu
      have hL1 : cutLeft1 xs = cutLeft0 xs := by
        unfold cutLeft1
        rw [Bool.not_eq_true] at hLL
        rw [hLL]
        rfl
      have hL0ne : cutLeft0 xs ≠ [] := hL1 ▸ hL1ne
      -- l is the mass of the below-average side, and it is positive
      have habs : ∀ q ∈ cutLeft0 xs, |q.2 - cutAvg xs| = cutAvg xs - q.2 := by
        intro q hq
        have hmem := List.mem_filter.mp hq
        have hlt : q.2 < cutAvg xs := by
          have := hmem.2
          simpa using this
        rw [abs_of_neg (by linarith)]
        ring
      have hl_eq : cutL xs = ((cutLeft0 xs).map (fun q => cutAvg xs - q.2)).sum := by
        unfold cutL
        rw [hL1, sortByFlow_map_sum]
        congr 1
        exact List.map_congr_left habs
      have hl_pos : 0 < cutL xs := by
        rw [hl_eq]
        apply sum_pos_of_mem_pos _ _ hL0ne
        intro q hq
        have hmem := List.mem_filter.mp hq
        have hlt : q.2 < cutAvg xs := by
          have := hmem.2
          simpa using this
        linarith
      -- the above-average mass equals l
      have hbal : ((cutLeft0 xs).map (fun q => q.2 - cutAvg xs)).sum
          + ((cutRight0 xs).map (fun q => q.2 - cutAvg xs)).sum = 0 := by
        rw [cutRight0_bang]
        have := sum_filter_partition (fun q => decide (q.2 < cutAvg xs))
          (fun q => q.2 - cutAvg xs) xs
        unfold cutLeft0
        rw [this]
        exact sum_sub_avg_eq_zero xs hxne
      have hleft_mass : ((cutLeft0 xs).map (fun q => q.2 - cutAvg xs)).sum
          = -(cutL xs) := by
        rw [hl_eq]
        have : ((cutLeft0 xs).map (fun q => cutAvg xs - q.2)).sum
            = -(((cutLeft0 xs).map (fun q => q.2 - cutAvg xs)).sum) := by
          rw [← sum_map_neg]
          congr 1
          apply List.map_congr_left
          intro q _
          ring
        rw [this]
        ring
      have hright_mass : ((cutRight0 xs).map (fun q => q.2 - cutAvg xs)).sum
          = cutL xs := by
        linarith
      -- each vertex at or above mu carries at least 4l/cnt of that mass
      have hhigh_each : ∀ q ∈ xs.filter (fun q => !(decide (q.2 < cutMu xs))),
          4 * cutL xs / (xs.length : ℚ) ≤ q.2 - cutAvg xs := by
        intro q hq
        have hmem := List.mem_filter.mp hq
        have h2 := hmem.2
        simp only [Bool.not_eq_true', decide_eq_false_iff_not] at h2
        have hge : cutMu xs ≤ q.2 := not_lt.mp h2
        unfold cutMu at hge
        linarith
      have hhigh_sub : ((xs.filter (fun q => !(decide (q.2 < cutMu xs)))).map
            (fun q => q.2 - cutAvg xs)).sum
          ≤ ((cutRight0 xs).map (fun q => q.2 - cutAvg xs)).sum := by
        rw [cutRight0_bang]
        apply sum_filter_mono
        · intro q _ hq
          simp only [Bool.not_eq_true', decide_eq_false_iff_not] at hq ⊢
          intro hlt
          exact hq (lt_of_lt_of_le hlt hmu_ge)
        · intro q _ hq
          simp only [Bool.not_eq_true', decide_eq_false_iff_not] at hq
          have := not_lt.mp hq
          linarith
      have hcount : ((xs.filter (fun q => !(decide (q.2 < cutMu xs)))).length : ℚ)
            * (4 * cutL xs / (xs.length : ℚ))
          ≤ cutL xs := by
        calc ((xs.filter (fun q => !(decide (q.2 < cutMu xs)))).length : ℚ)
              * (4 * cutL xs / (xs.length : ℚ))
            ≤ ((xs.filter (fun q => !(decide (q.2 < cutMu xs)))).map
                (fun q => q.2 - cutAvg xs)).sum :=
              mul_le_sum_of_forall_le _ _ _ hhigh_each
          _ ≤ ((cutRight0 xs).map (fun q => q.2 - cutAvg xs)).sum := hhigh_sub
          _ = cutL xs := hright_mass
      -- hence at most a quarter of the vertices sit at or above mu
      have hquarter : 4 * (xs.filter (fun q => !(decide (q.2 < cutMu xs)))).length
          ≤ xs.length := by
        set k := (xs.filter (fun q => !(decide (q.2 < cutMu xs)))).length with hk
        have h1 : (k : ℚ) * (4 * cutL xs / (xs.length : ℚ)) ≤ cutL xs := hcount
        rw [mul_div_assoc'] at h1
        rw [div_le_iff₀ hcntQ] at h1
        have h2 : (k : ℚ) * 4 ≤ (xs.length : ℚ) := by
          have h3 := (mul_le_mul_right hl_pos).mp (by linarith : (k : ℚ) * 4 * cutL xs ≤ (xs.length : ℚ) * cutL xs)
          exact h3
        have h4 : (4 * k : ℚ) ≤ (xs.length : ℚ) := by linarith
        exact_mod_cast h4
      omega

/-- C4 amended: for every flow vector over the alive subdivision vertices,
under the non-balanced strategy the returned `axLeft` is never larger than
`axRight` (the intended reading of the mis-parenthesized assertion on line
216); `axLeft` non-emptiness, the other half of the claim, is refuted by
`proposeCut_left_can_be_empty`.  The proof runs through all three cut-player
cases: the shrink loop leaves at most `m/8` vertices on the left, while the
right side always keeps at least `m/8` — by the half-split in case A, by
being the larger side in case B, and in case C because the vertices at or
above `mu = avg + 4l/m` carry at least `4l/m` of the above-average mass
each, so at most a quarter of the vertices are missing from `axRight`. -/
theorem proposeCut_left_le_right (xs : List (ℕ × ℚ)) :
    (proposeCut false xs).1.length ≤ (proposeCut false xs).2.length := by
  unfold proposeCut
  rw [if_neg (by simp)]
  dsimp only
  have h1 := shrinkLoop_le xs.length
    (if cutLeftLarger xs then (cutCore xs).1.reverse else (cutCore xs).1)
  have h2 := cutCore_right_large xs
  omega

/-- C4 counterexample: on the flow vector `[0, 1]` over two alive subdivision
vertices, `proposeCut` under the non-balanced strategy returns an EMPTY
`axLeft`: the balancing loop `while (8·|axLeft| > curSubdivisionCount)
pop_back()` (cut_matching.cpp lines 214-215) pops the single left vertex
because `8·1 > 2`, after the non-empty assertion of line 203 has already
passed.  So the claim that `axLeft` is always non-empty is false.  (The
in-code size assertion of line 216 is `!axLeft.size() <= axRight.size()`,
which parses as `(!axLeft.size()) <= axRight.size()` and does not check
this.) -/
theorem proposeCut_left_can_be_empty :
    ([((0 : ℕ), (0 : ℚ)), (1, 1)] : List (ℕ × ℚ)).length = 2 ∧
    (proposeCut false [((0 : ℕ), (0 : ℚ)), (1, 1)]).1 = [] := by
  refine ⟨rfl, ?_⟩
  set xs0 : List (ℕ × ℚ) := [((0 : ℕ), (0 : ℚ)), (1, 1)] with hxs
  have havg : cutAvg xs0 = 1/2 := by norm_num [hxs, cutAvg]
  have hL0 : cutLeft0 xs0 = [(0, 0)] := by
    unfold cutLeft0
    rw [havg, hxs]
    norm_num [List.filter]
  have hR0 : cutRight0 xs0 = [(1, 1)] := by
    unfold cutRight0
    rw [havg, hxs]
    norm_num [List.filter]
  have hLL : cutLeftLarger xs0 = false := by
    unfold cutLeftLarger
    rw [hL0, hR0]
    simp
  have hL1 : cutLeft1 xs0 = [(0, 0)] := by
    unfold cutLeft1
    rw [hLL, hL0]
    simp
  have hR1 : cutRight1 xs0 = [(1, 1)] := by
    unfold cutRight1
    rw [hLL, hR0]
    simp
  have htot : totalPotential xs0 = 1/2 := by
    unfold totalPotential
    rw [havg, hxs]
    norm_num
  have hlp : leftPotential xs0 = 1/4 := by
    unfold leftPotential
    rw [havg, hL1]
    norm_num
  have hsortL : sortByFlow (cutLeft1 xs0) = [(0, 0)] := by
    rw [hL1]
    rfl
  have hsortR : sortByFlow (cutRight1 xs0) = [(1, 1)] := by
    rw [hR1]
    rfl
  have hcore : cutCore xs0 = ([(0, 0)], [(1, 1)]) := by
    unfold cutCore
    rw [if_neg (by rw [hsortL]; simp)]
    rw [if_pos (by rw [htot, hlp]; norm_num)]
    rw [hsortL, hLL]
    simp [hsortR]
  unfold proposeCut
  rw [if_neg (by simp)]
  rw [hcore, hLL]
  simp only [Bool.false_eq_true, if_false]
  have hlen : xs0.length = 2 := by rw [hxs]; rfl
  rw [hlen]
  rw [shrinkLoop]
  rw [if_pos (by norm_num)]
  rw [shrinkLoop]
  rw [if_neg (by norm_num)]
  rfl


end CutMatching

